import Mathlib

/-!
Verification of the in-memory indexing, scheduling and graph-routing core of
`src/daa_project.c++` (a restaurant-management console program).  The four
components under study are the AVL customer index (`insertAVL` and friends),
the order max-heap (`orderHeap`, `orderHeapifyUp`), the dynamically resized
open-addressed hash table (`class DynamicInventoryTable`) and the delivery
graph module (`initDeliveryGraph`, `addDeliveryEdge`, `dijkstraOptimized`,
`tspApproximation`, `displayTSPRoute`).

Modelling conventions:
* C++ `std::string` keys are modelled as lists of character codes
  (`List Nat`); the hash function sums the codes exactly as the source does.
* Machine integers are modelled as `Nat`/`Int`; the quantities involved
  (counts at most a few hundred, distances at most a few hundred thousand)
  are far below any overflow boundary of 32-bit `int`.
* The floating-point load-factor test
  `(double)itemCount / currentSize >= 0.7` is modelled by the exact rational
  comparison `7 * capacity ≤ 10 * itemCount`.  For every capacity the table
  can reach the two tests agree: `itemCount/capacity` differs from `0.7` by
  at least `1/(10*capacity)`, which dwarfs the `2^-53`-scale rounding of the
  double division and of the constant `0.7`.
* While loops whose body terminates but whose guard may in principle spin
  forever (the collision-probe loops, `nextPrime`) are modelled with an
  explicit fuel argument; `none` (or fuel exhaustion) means the loop has not
  exited.  The probe position after `i` retries is
  `(home + i*(i+1)/2) mod capacity`, which is periodic in `i` with period
  `2*capacity`, so `2*capacity` units of fuel exhaust every state the C++
  probe loop can ever be in: a `none` result with that fuel means the C++
  loop runs forever.
* Writing past the end of a fixed C-array (no bounds check in the source) is
  undefined behaviour; the embedding returns `none` there.
-/

set_option maxRecDepth 100000

/-! ## DynamicInventoryTable (hash store with open addressing and rehash) -/

/-- Keys: C++ `std::string` as a list of character codes. -/
abbrev HKey := List Nat

/-- One table slot: `HashNode` with its `used` flag (`none` = unused; the
source leaves `name`/`item` default-constructed, which no code path reads
while `used` is false). -/
abbrev HSlot := Option (HKey × Nat)

/-- `int hash(const string& key)`: sum of character codes mod capacity. -/
def hashSum (key : HKey) (cap : Nat) : Nat :=
  (key.foldl (fun s c => s + c) 0) % cap

/-- The collision-probe loop shared verbatim by `insert` and `retrieve`:
`while (table[idx].used && table[idx].name != name) { idx = (idx+step)%cap; step++; }`.
Returns the index at which the loop stops; `none` = the fuel ran out before
the loop exited. -/
def findSlot (slots : List HSlot) (cap : Nat) (key : HKey) :
    Nat → Nat → Nat → Option Nat
  | _, _, 0 => none
  | idx, step, fuel+1 =>
    match slots.getD idx none with
    | none => some idx
    | some (k, _) =>
      if k = key then some idx
      else findSlot slots cap key ((idx + step) % cap) (step + 1) fuel

/-- The mutable state of a `DynamicInventoryTable`:
`currentSize`, `table`, `itemCount`. -/
structure TableState where
  cap : Nat
  slots : List HSlot
  count : Nat
deriving Repr, DecidableEq

/-- Number of slots whose `used` flag is set. -/
def occupiedCount (slots : List HSlot) : Nat :=
  (slots.filter Option.isSome).length

/-- The insertion step common to `insert` and the reinsertion loop of
`rehash`: run the probe loop from the key's home slot, then
`if (!table[idx].used) itemCount++; table[idx] = {name, item, true};`.
Fuel `2*cap` covers every state of the probe loop (its position is periodic
in the retry number with period `2*cap`), so `none` means the C++ probe loop
diverges. -/
def place (s : TableState) (key : HKey) (v : Nat) : Option TableState :=
  match findSlot s.slots s.cap key (hashSum key s.cap) 1 (2 * s.cap) with
  | none => none
  | some idx =>
    match s.slots.getD idx none with
    | none => some ⟨s.cap, s.slots.set idx (some (key, v)), s.count + 1⟩
    | some _ => some ⟨s.cap, s.slots.set idx (some (key, v)), s.count⟩

/-- Trial-division loop of `nextPrime`:
`for (int i = 2; i * i <= n; i++) if (n % i == 0) ...`.
Fuel `n+1` always suffices because the loop runs at most `√n` times. -/
def noDivAux (n : Nat) : Nat → Nat → Bool
  | _, 0 => true
  | i, fuel+1 =>
    if i * i ≤ n then
      if n % i = 0 then false else noDivAux n (i + 1) fuel
    else true

/-- The primality test used by `nextPrime` (trial division up to `√n`). -/
def tdIsPrime (n : Nat) : Bool := noDivAux n 2 (n + 1)

/-- The `while (true) { if (isPrime) return n; n++; }` search of `nextPrime`,
with fuel.  By Bertrand's postulate a prime exists in `[n, 2n]`, so fuel
`n+1` always finds one; exhaustion is unreachable for the arguments the
table ever passes. -/
def nextPrimeFrom : Nat → Nat → Nat
  | n, 0 => n
  | n, fuel+1 => if tdIsPrime n then n else nextPrimeFrom (n + 1) fuel

/-- `int nextPrime(int n)`: smallest trial-division-prime `≥ n`. -/
def nextPrime (n : Nat) : Nat := nextPrimeFrom n (n + 1)

/-- Walk a list of old slots, reinserting every used entry with the supplied
insert function — the `for (i...) if (oldTable[i].used) insert(...)` loop of
`rehash`. -/
def reinsertAll (ins : TableState → HKey → Nat → Option TableState) :
    List HSlot → Option TableState → Option TableState
  | [], acc => acc
  | slot :: rest, acc =>
    match acc, slot with
    | none, _ => reinsertAll ins rest none
    | some t, none => reinsertAll ins rest (some t)
    | some t, some (k, v) => reinsertAll ins rest (ins t k v)

/-- `void insert(const string& name, const InventoryItem& item)` together
with the `rehash()` it may trigger.  The branch condition models
`(double)itemCount / currentSize >= 0.7` exactly (see the header comment).
`rehash()` is inlined: it copies the table, grows `currentSize` to
`nextPrime(2*currentSize)`, *resizes the vector in place* — `table.resize`
keeps all existing entries, including their `used` flags, and only appends
default (unused) slots — resets `itemCount` to 0, and reinserts every used
entry of the copy by calling `insert` recursively.  The first argument is
the recursion depth available for such nested rehashes; reachable states
never need more than one. -/
def insertAux : Nat → TableState → HKey → Nat → Option TableState
  | 0, _, _, _ => none
  | d+1, s, key, v =>
    if 7 * s.cap ≤ 10 * s.count then
      match reinsertAll (insertAux d) s.slots
          (some ⟨nextPrime (2 * s.cap),
                 s.slots ++ List.replicate (nextPrime (2 * s.cap) - s.cap) none,
                 0⟩) with
      | none => none
      | some t => place t key v
    else place s key v

/-- Top-level `insert` of the table (rehash depth 2 is enough for any state
this file ever runs it on; `none` = a probe loop diverged or the depth was
exceeded). -/
def insertTable (s : TableState) (key : HKey) (v : Nat) : Option TableState :=
  insertAux 2 s key v

/-- `DynamicInventoryTable()`: capacity 53, all slots unused, count 0. -/
def emptyTable : TableState := ⟨53, List.replicate 53 none, 0⟩

/-- Run a sequence of `insert(key, value)` calls from a fresh table. -/
def runInserts (ops : List (HKey × Nat)) : Option TableState :=
  ops.foldl (fun acc kv => acc.bind (fun s => insertTable s kv.1 kv.2)) (some emptyTable)

/-- `bool retrieve(const string& name, InventoryItem& item)` with explicit
probe fuel: outer `none` = the probe loop has not exited within the fuel;
`some none` = "not found"; `some (some v)` = found with value `v`. -/
def retrieveFuel (fuel : Nat) (s : TableState) (key : HKey) : Option (Option Nat) :=
  match findSlot s.slots s.cap key (hashSum key s.cap) 1 fuel with
  | none => none
  | some idx =>
    match s.slots.getD idx none with
    | none => some none
    | some (k, v) => if k = key then some (some v) else some none

/-- `retrieve` with the canonical fuel `2*capacity`, which exhausts every
state of the (periodic) probe loop: `none` here means the C++ loop diverges. -/
def retrieveTable (s : TableState) (key : HKey) : Option (Option Nat) :=
  retrieveFuel (2 * s.cap) s key

/-- The key written as `n` repetitions of the character `'a'` (code 97). -/
def keyA (n : Nat) : HKey := List.replicate n 97

/-- `n` inserts of the pairwise distinct keys `"a"`, `"aa"`, …, `"a"*n`
(home slots `44*k mod 53` are pairwise distinct for `k ≤ 39`). -/
def opsA (n : Nat) : List (HKey × Nat) :=
  (List.range n).map (fun i => (keyA (i + 1), i + 1))

/-- Triangular numbers: the probe offset after `i` retries. -/
def triang : Nat → Nat
  | 0 => 0
  | n+1 => triang n + (n + 1)

/-- Key lengths whose `"a"*k` keys have home slots exactly the 27 residues
`{triang i mod 53}` that the probe sequence starting at slot 0 can ever
visit. -/
def ks27 : List Nat :=
  [53, 47, 41, 35, 17, 11, 46, 40, 34, 28, 22, 16, 45, 33, 9,
   44, 32, 26, 14, 2, 49, 37, 19, 48, 36, 12, 6]

/-- 27 inserts that fill every slot the probe sequence from home 0 can reach. -/
def ops27 : List (HKey × Nat) := ks27.map (fun k => (keyA k, k))

/-- The key `"b"*53` (code 98): home slot 0, distinct from every `"a"*k`. -/
def keyB : HKey := List.replicate 53 98

/-! ## Order max-heap (`orderHeap`, `orderHeapifyUp`)

`Domain::Order` is modelled by its `priority` field (the only field the heap
routines compare) plus an opaque payload standing for the remaining fields. -/

structure OrderRec where
  priority : Int
  payload : Nat
deriving Repr, DecidableEq, Inhabited

/-- `orderHeap[i].priority` (default for an out-of-range read, which the
modelled code never performs). -/
def prioAt (l : List OrderRec) (i : Nat) : Int := (l.getD i default).priority

/-- `parent = (index - 1) >> 1`. -/
def parentIdx (i : Nat) : Nat := (i - 1) / 2

/-- `swap(orderHeap[i], orderHeap[j])`. -/
def swapAt (l : List OrderRec) (i j : Nat) : List OrderRec :=
  (l.set i (l.getD j default)).set j (l.getD i default)

/-- `orderHeapifyUp`: `while (index > 0) { parent = (index-1)>>1;
if (heap[parent].priority >= heap[index].priority) break; swap; index = parent; }`.
The index strictly decreases, so fuel `index + 1` always finishes the loop. -/
def heapifyUpFuel : Nat → List OrderRec → Nat → List OrderRec
  | 0, l, _ => l
  | fuel+1, l, idx =>
    if idx = 0 then l
    else if prioAt l idx ≤ prioAt l (parentIdx idx) then l
    else heapifyUpFuel fuel (swapAt l (parentIdx idx) idx) (parentIdx idx)

/-- The only insertion path for orders in the source:
`orderHeap[orderHeapSize++] = o; orderHeapifyUp(orderHeapSize - 1);`
(no capacity test anywhere).  `orderHeap` is `Domain::Order[300]`, so when
300 orders are already stored the store `orderHeap[300] = o` is past the end
of the array — undefined behaviour, modelled as `none`. -/
def orderInsert (l : List OrderRec) (o : OrderRec) : Option (List OrderRec) :=
  if l.length < 300 then
    some (heapifyUpFuel (l.length + 1) (l ++ [o]) l.length)
  else none

/-- The heap invariant of the spec: every non-root entry is `≤` its parent. -/
def maxHeapProp (l : List OrderRec) : Prop :=
  ∀ i, i < l.length → 0 < i → prioAt l i ≤ prioAt l (parentIdx i)

/-- "Heap everywhere except at `j`, and `j`'s children are dominated by
`j`'s parent" — the loop invariant of `orderHeapifyUp`. -/
def almostHeap (l : List OrderRec) (j : Nat) : Prop :=
  (∀ i, i < l.length → 0 < i → i ≠ j → prioAt l i ≤ prioAt l (parentIdx i)) ∧
  (∀ c, c < l.length → parentIdx c = j → 0 < j → prioAt l c ≤ prioAt l (parentIdx j))

/-! ## Delivery graph (`deliveryGraph`, Dijkstra, nearest-neighbour tour)

The adjacency matrix is modelled as a total function `Nat → Nat → Int`; the
algorithms under study (`dijkstraOptimized`, `tspApproximation`,
`displayTSPRoute`) read only entries with both indices below `n` and never
read the adjacency lists, so the lists are not modelled. -/

/-- `initDeliveryGraph(n)`: diagonal 0, everything else the sentinel 99999. -/
def initGraph (_n : Nat) : Nat → Nat → Int :=
  fun i j => if i = j then 0 else 99999

/-- `addDeliveryEdge(u, v, w)`: symmetric matrix update (the adjacency-list
prepends are not read by the modelled algorithms). -/
def addEdgeG (g : Nat → Nat → Int) (u v : Nat) (w : Int) : Nat → Nat → Int :=
  fun i j => if (i = u ∧ j = v) ∨ (i = v ∧ j = u) then w else g i j

/-- `initDeliveryGraph(n)` followed by one `addDeliveryEdge` per list entry. -/
def buildGraph (n : Nat) (edges : List (Nat × Nat × Int)) : Nat → Nat → Int :=
  edges.foldl (fun g e => addEdgeG g e.1 e.2.1 e.2.2) (initGraph n)

/-- Spec-level edge relation of the built graph: the (undirected) edge was
actually added by some `addDeliveryEdge` call. -/
def EdgeIn (edges : List (Nat × Nat × Int)) (u v : Nat) : Prop :=
  ∃ w, (u, v, w) ∈ edges ∨ (v, u, w) ∈ edges

/-- Spec-level reachability: a path of added edges. -/
def Reaches (edges : List (Nat × Nat × Int)) : Nat → Nat → Prop :=
  Relation.ReflTransGen (EdgeIn edges)

/-- One step of the inner loop of `tspApproximation`:
`if (!visited[j] && graph[current][j] < minDist) { minDist = …; nearest = j; }`. -/
def selStep (g : Nat → Nat → Int) (visited : List Bool) (cur : Nat)
    (acc : Int × Option Nat) (j : Nat) : Int × Option Nat :=
  if visited.getD j true = false ∧ g cur j < acc.1 then (g cur j, some j) else acc

/-- The inner loop of `tspApproximation`:
`int nearest = -1; int minDist = 1e9; for j < n: …` (accumulator =
`(minDist, nearest)`, `none` = `-1`). -/
def selectNearest (g : Nat → Nat → Int) (visited : List Bool) (cur n : Nat) :
    Int × Option Nat :=
  (List.range n).foldl (selStep g visited cur) ((10 ^ 9 : Int), none)

/-- The outer `for (int i = 1; i < n; i++)` loop of `tspApproximation`,
by remaining iteration count.  State: current vertex, visited flags, route. -/
def tourLoop (g : Nat → Nat → Int) (n : Nat) :
    Nat → Nat × List Bool × List Nat → Nat × List Bool × List Nat
  | 0, st => st
  | k+1, (cur, visited, route) =>
    match (selectNearest g visited cur n).2 with
    | some j => tourLoop g n k (j, visited.set j true, route ++ [j])
    | none => tourLoop g n k (cur, visited, route)

/-- `vector<int> tspApproximation(int start, int n)`. -/
def tspApprox (g : Nat → Nat → Int) (start n : Nat) : List Nat :=
  (tourLoop g n (n - 1)
      (start, (List.replicate n false).set start true, [start])).2.2 ++ [start]

/-- The per-leg distances printed by `displayTSPRoute`:
`deliveryGraph[route[i]][route[i+1]]` for consecutive route entries. -/
def tourLegs (g : Nat → Nat → Int) (route : List Nat) : List (Nat × Nat × Int) :=
  (route.zip route.tail).map (fun p => (p.1, p.2, g p.1 p.2))

/-- `Total Route Distance` printed by `displayTSPRoute`. -/
def tourTotal (g : Nat → Nat → Int) (route : List Nat) : Int :=
  (tourLegs g route).foldl (fun a l => a + l.2.2) 0

/-- Ordered insertion into the pending queue.  `std::priority_queue` with
`greater<pair<int,int>>` always pops the lexicographically smallest pair; a
list kept sorted (lexicographically ascending) with head popping realises
exactly that observable behaviour. -/
def pqPush : List (Int × Nat) → Int × Nat → List (Int × Nat)
  | [], x => [x]
  | y :: rest, x =>
    if x.1 < y.1 ∨ (x.1 = y.1 ∧ x.2 ≤ y.2) then x :: y :: rest
    else y :: pqPush rest x

/-- The neighbour scan of `dijkstraOptimized`:
`for v < n: if (graph[u][v] && dist[u] + graph[u][v] < dist[v])
 { dist[v] = dist[u] + graph[u][v]; pq.push({dist[v], v}); }`
(`parent[v]` is also set, but only feeds the `via` display, not the claims). -/
def relaxStep (g : Nat → Nat → Int) (u : Nat)
    (st : List Int × List (Int × Nat)) (j : Nat) : List Int × List (Int × Nat) :=
  if g u j ≠ 0 ∧ st.1.getD u 0 + g u j < st.1.getD j 0 then
    (st.1.set j (st.1.getD u 0 + g u j),
     pqPush st.2 (st.1.getD u 0 + g u j, j))
  else st

def relaxAll (g : Nat → Nat → Int) (u n : Nat)
    (dist : List Int) (pq : List (Int × Nat)) : List Int × List (Int × Nat) :=
  (List.range n).foldl (relaxStep g u) (dist, pq)

/-- The `while (!pq.empty())` loop of `dijkstraOptimized` with fuel
(`none` = fuel ran out with work pending; the loop itself always
terminates, but fuel makes the recursion structural). -/
def dijkstraLoop (g : Nat → Nat → Int) (n : Nat) :
    Nat → List (Int × Nat) → List Int → Option (List Int)
  | fuel, pq, dist =>
    match pq with
    | [] => some dist
    | (d, u) :: rest =>
      match fuel with
      | 0 => none
      | fuel+1 =>
        if dist.getD u 0 < d then dijkstraLoop g n fuel rest dist
        else
          let st := relaxAll g u n dist rest
          dijkstraLoop g n fuel st.2 st.1

/-- `dijkstraOptimized(src, n)`: `dist` initialised to `1e9` except
`dist[src] = 0`, queue seeded with `{0, src}`. -/
def dijkstraRun (fuel : Nat) (g : Nat → Nat → Int) (n src : Nat) : Option (List Int) :=
  dijkstraLoop g n fuel [(0, src)] ((List.replicate n (10 ^ 9 : Int)).set src 0)

/-- What `dijkstraOptimized` prints for vertex `v`:
`dist[i] == 1e9 ? -1 : dist[i]`. -/
def dijkstraReport (dist : List Int) (v : Nat) : Int :=
  if dist.getD v 0 = 10 ^ 9 then -1 else dist.getD v 0

/-- Well-formedness of a built matrix: zero diagonal, every off-diagonal
entry between 1 and the sentinel 99999 (what `initDeliveryGraph` plus
`addDeliveryEdge` calls with weights in `[1, 99999]` and `u ≠ v` produce). -/
def GraphOK (g : Nat → Nat → Int) : Prop :=
  (∀ i, g i i = 0) ∧ (∀ i j, i ≠ j → 1 ≤ g i j ∧ g i j ≤ 99999)

/-- The 9 edges of the demo delivery graph (spec Scenarios C/D). -/
def demoEdges : List (Nat × Nat × Int) :=
  [(0, 1, 7), (0, 2, 9), (0, 5, 14), (1, 2, 10), (1, 3, 15),
   (2, 3, 11), (2, 5, 2), (3, 4, 6), (4, 5, 9)]

/-! ## AVL customer index (`BSTNode`, `insertAVL`, `inorderBST`) -/

inductive AVLTree where
  | nil
  | node (l : AVLTree) (key : Int) (name : String) (hgt : Nat) (r : AVLTree)
deriving Repr, DecidableEq

/-- `int height(BSTNode* n)`: the cached height field, 0 for null. -/
def heightC : AVLTree → Nat
  | .nil => 0
  | .node _ _ _ h _ => h

/-- Root key; the source only dereferences `node->left->key` /
`node->right->key` on non-null children, so the nil default is never hit on
the executed paths. -/
def rootKeyD : AVLTree → Int
  | .nil => 0
  | .node _ k _ _ _ => k

/-- `createNode`: fresh leaf with cached height 1. -/
def createNode (key : Int) (name : String) : AVLTree :=
  .node .nil key name 1 .nil

/-- `rightRotate(y)` (only ever called with `y->left` non-null):
`x = y->left; T2 = x->right; x->right = y; y->left = T2;` then recompute the
two cached heights exactly as the source does. -/
def rightRotate : AVLTree → AVLTree
  | .node (.node ll lk ln _ lr) k n _ r =>
    .node ll lk ln (max (heightC ll) (max (heightC lr) (heightC r) + 1) + 1)
      (.node lr k n (max (heightC lr) (heightC r) + 1) r)
  | t => t

/-- `leftRotate(x)` (only ever called with `x->right` non-null). -/
def leftRotate : AVLTree → AVLTree
  | .node l k n _ (.node rl rk rn _ rr) =>
    .node (.node l k n (max (heightC l) (heightC rl) + 1) rl) rk rn
      (max (max (heightC l) (heightC rl) + 1) (heightC rr) + 1) rr
  | t => t

/-- The tail of `insertAVL` after the recursive call: update the cached
height (`node->height = 1 + max(height(l), height(r))`), compute the balance
factor from cached heights, and apply the four rotation cases in source
order, selecting by comparing the inserted key with the child's key.  (In
the double-rotation cases the outer rotation recomputes the heights, so
passing the pre-rotation cached height mirrors the source exactly.) -/
def rebuildAVL (l : AVLTree) (k : Int) (n : String) (r : AVLTree) (key : Int) : AVLTree :=
  if 1 < (heightC l : Int) - heightC r ∧ key < rootKeyD l then
    rightRotate (.node l k n (1 + max (heightC l) (heightC r)) r)
  else if (heightC l : Int) - heightC r < -1 ∧ rootKeyD r < key then
    leftRotate (.node l k n (1 + max (heightC l) (heightC r)) r)
  else if 1 < (heightC l : Int) - heightC r ∧ rootKeyD l < key then
    rightRotate (.node (leftRotate l) k n (1 + max (heightC l) (heightC r)) r)
  else if (heightC l : Int) - heightC r < -1 ∧ key < rootKeyD r then
    leftRotate (.node l k n (1 + max (heightC l) (heightC r)) (rightRotate r))
  else .node l k n (1 + max (heightC l) (heightC r)) r

/-- `BSTNode* insertAVL(BSTNode* node, int key, const string& name)`.
Duplicate keys return the node unchanged (`else return node`). -/
def insertAVL : AVLTree → Int → String → AVLTree
  | .nil, key, name => createNode key name
  | .node l k n hh r, key, name =>
    if key < k then rebuildAVL (insertAVL l key name) k n r key
    else if k < key then rebuildAVL l k n (insertAVL r key name) key
    else .node l k n hh r

/-- `inorderBST` visits left subtree, node, right subtree; we record the keys
it prints. -/
def inorderKeys : AVLTree → List Int
  | .nil => []
  | .node l k _ _ r => inorderKeys l ++ [k] ++ inorderKeys r

/-- True (recomputed) height of a tree. -/
def realHeight : AVLTree → Nat
  | .nil => 0
  | .node l _ _ _ r => 1 + max (realHeight l) (realHeight r)

/-- Balance factor from true heights. -/
def bfR : AVLTree → Int
  | .nil => 0
  | .node l _ _ _ r => (realHeight l : Int) - realHeight r

/-- Every node's cached height equals its true height. -/
inductive HCache : AVLTree → Prop
  | nil : HCache .nil
  | node {l r : AVLTree} {k : Int} {n : String} {h : Nat} :
      HCache l → HCache r → h = 1 + max (realHeight l) (realHeight r) →
      HCache (.node l k n h r)

/-- The AVL balance invariant on true heights:
`|height(left) − height(right)| ≤ 1` at every node. -/
inductive BalancedT : AVLTree → Prop
  | nil : BalancedT .nil
  | node {l r : AVLTree} {k : Int} {n : String} {h : Nat} :
      BalancedT l → BalancedT r →
      realHeight l ≤ realHeight r + 1 → realHeight r ≤ realHeight l + 1 →
      BalancedT (.node l k n h r)

/-- All keys of the tree satisfy `p`. -/
inductive ForallT (p : Int → Prop) : AVLTree → Prop
  | nil : ForallT p .nil
  | node {l r : AVLTree} {k : Int} {n : String} {h : Nat} :
      ForallT p l → p k → ForallT p r → ForallT p (.node l k n h r)

/-- Binary-search-tree ordering. -/
inductive OrderedT : AVLTree → Prop
  | nil : OrderedT .nil
  | node {l r : AVLTree} {k : Int} {n : String} {h : Nat} :
      OrderedT l → OrderedT r →
      ForallT (· < k) l → ForallT (k < ·) r → OrderedT (.node l k n h r)

/-- Fold a list of `(key, name)` insertions into an initially empty index. -/
def runAVL (ops : List (Int × String)) : AVLTree :=
  ops.foldl (fun t kv => insertAVL t kv.1 kv.2) .nil

/-- The full well-formedness package of the customer index: binary-search
ordering, correct cached heights, and the AVL balance invariant. -/
def GoodT (t : AVLTree) : Prop := OrderedT t ∧ HCache t ∧ BalancedT t

/-- The 27 residues `{triang i mod 53 : i}` — every slot index the probe
sequence starting from home slot 0 can ever visit. -/
def tri27 : List Nat :=
  [0, 1, 2, 3, 6, 7, 10, 11, 12, 13, 14, 15, 19, 21, 25, 28, 30, 31, 33,
   35, 36, 38, 41, 45, 47, 51, 52]

/-- Length of the `"a"*k` key whose home slot is `i` (`44 * k ≡ i mod 53`,
inverted by `k = 47 * i mod 53`, with `k = 53` for `i = 0`). -/
def badKeyLen (i : Nat) : Nat :=
  if 47 * i % 53 = 0 then 53 else 47 * i % 53

/-- The slot list produced by the 27 inserts of `ops27`: every probe-reachable
slot from home 0 is occupied by an `"a"*k` key sitting at its own home. -/
def bad27slots : List HSlot :=
  (List.range 53).map
    (fun i => if i ∈ tri27 then some (keyA (badKeyLen i), badKeyLen i) else none)

/-- The full table state after the 27 inserts of `ops27`. -/
def bad27state : TableState := ⟨53, bad27slots, 27⟩

/-- Does the probe loop keep running at `idx` (slot used, key different)? -/
def blockedB (slots : List HSlot) (key : HKey) (idx : Nat) : Bool :=
  match slots.getD idx none with
  | none => false
  | some (k, _) => k != key

/-- The slot index the probe loop for `key` is at after `m` retries, at
capacity 53: `(home + triang m) mod 53`. -/
def probeIdx (key : HKey) (m : Nat) : Nat :=
  (hashSum key 53 + triang m) % 53

/-- The probe loop for `key` exits at retry `m`: the slot there is free or
holds `key` itself. -/
def probeStop (slots : List HSlot) (key : HKey) (m : Nat) : Prop :=
  slots.getD (probeIdx key m) none = none ∨
    ∃ v, slots.getD (probeIdx key m) none = some (key, v)

/-- The value of the most recent insert for `key` in an operation sequence
(`none` = never inserted). -/
def lastVal (ops : List (HKey × Nat)) (key : HKey) : Option Nat :=
  ops.foldl (fun acc kv => if kv.1 = key then some kv.2 else acc) none

/-- Invariant tying a (rehash-free) table state to the operation history:
capacity and length are 53, the counter is bounded by the number of
operations, every occupied slot holds an inserted key with its most recent
value and is reached from that key's home slot through a fully blocked probe
path, and every inserted key occupies some slot. -/
def TableInv (ops : List (HKey × Nat)) (s : TableState) : Prop :=
  s.cap = 53 ∧ s.slots.length = 53 ∧ s.count ≤ ops.length ∧
  (∀ j, j < 53 → ∀ k v, s.slots.getD j none = some (k, v) →
    lastVal ops k = some v ∧
    ∃ m, m < 106 ∧ probeIdx k m = j ∧
      ∀ i, i < m → blockedB s.slots k (probeIdx k i) = true) ∧
  (∀ k, lastVal ops k ≠ none →
    ∃ j, j < 53 ∧ ∃ v, s.slots.getD j none = some (k, v))

/-!
## Theorems

Helper lemmas first, then one theorem (plus witness / counterexample where
required) per claim C1–C10.
-/

/-! ### Probe-sequence arithmetic (claims C6, C9) -/

theorem triang_add (m k : Nat) : triang (m + k) = triang m + triang k + m * k := by
  induction k with
  | zero => simp [triang]
  | succ k ih =>
    have h1 : m + (k + 1) = (m + k) + 1 := by omega
    rw [h1, triang, ih, triang]
    ring

theorem triang_period (q r : Nat) : triang (106 * q + r) % 53 = triang r % 53 := by
  induction q with
  | zero => simp
  | succ q ih =>
    have h1 : 106 * (q + 1) + r = (106 * q + r) + 106 := by ring
    have h2 : triang 106 = 5671 := by decide
    rw [h1, triang_add, h2]
    have h3 : triang (106 * q + r) + 5671 + (106 * q + r) * 106 =
        triang (106 * q + r) + 53 * (107 + (106 * q + r) * 2) := by ring
    rw [h3, Nat.add_mul_mod_self_left, ih]

theorem triang_reduce (i : Nat) : triang i % 53 = triang (i % 106) % 53 := by
  conv_lhs => rw [← Nat.div_add_mod i 106]
  exact triang_period (i / 106) (i % 106)

theorem bad27_blocked : ∀ r, r < 106 → blockedB bad27slots keyB (triang r % 53) = true := by
  decide

theorem bad27_run : runInserts ops27 = some bad27state := by decide

theorem findSlot_bad27_none :
    ∀ fuel i, findSlot bad27slots 53 keyB (triang i % 53) (i + 1) fuel = none := by
  intro fuel
  induction fuel with
  | zero => intro i; rfl
  | succ fuel ih =>
    intro i
    have hb := bad27_blocked (i % 106) (Nat.mod_lt _ (by norm_num))
    rw [← triang_reduce i] at hb
    unfold blockedB at hb
    unfold findSlot
    cases hslot : bad27slots.getD (triang i % 53) none with
    | none => rw [hslot] at hb; exact absurd hb (by simp)
    | some kv =>
      rw [hslot] at hb
      obtain ⟨k, v⟩ := kv
      simp only [bne_iff_ne, ne_eq] at hb
      simp only [hb, if_false]
      have harg : (triang i % 53 + (i + 1)) % 53 = triang (i + 1) % 53 := by
        rw [Nat.mod_add_mod]
        rfl
      rw [harg]
      exact ih (i + 1)

/-- C6 (status: code_bug).  The spec promises that every operation always
terminates, but the collision-probe loop of the hash store can cycle
forever: after the 27 reachable inserts of `ops27` every slot the probe
sequence of key `"b"*53` (home slot 0) can ever visit is occupied by a
different key, so the probe loop of `insert`/`retrieve` for that key never
exits — for every amount of fuel, `findSlot` (the shared
`while (used && name != key)` loop) has not stopped. -/
theorem c6_probe_loop_diverges :
    ∀ fuel, (runInserts ops27).map
      (fun s => findSlot s.slots s.cap keyB (hashSum keyB s.cap) 1 fuel) = some none := by
  intro fuel
  rw [bad27_run]
  have h0 : hashSum keyB 53 = triang 0 % 53 := by decide
  simp only [Option.map_some']
  show some (findSlot bad27slots 53 keyB (hashSum keyB 53) 1 fuel) = some none
  rw [h0]
  exact congrArg some (findSlot_bad27_none fuel 0)

/-! ### C9 counterexample: lookup of an absent key never returns -/

/-- C9 counterexample.  After the 27 (rehash-free) inserts of `ops27`, the
key `"b"*53` was never inserted, yet `retrieve` does not return "not found":
its probe loop diverges (`none` with the canonical fuel `2*capacity`, which
exhausts the periodic probe sequence; `c6_probe_loop_diverges` shows the
loop never exits with any fuel). -/
theorem c9_lookup_diverges_counterexample :
    (runInserts ops27).map (fun s => retrieveTable s keyB) = some none ∧
      keyB ∉ ops27.map Prod.fst := by decide

/-! ### C1: load factor after an insert -/

/-- C1 counterexample.  38 inserts of distinct keys into the fresh table
complete with no rehash: `itemCount = 38`, `capacity = 53`, and the
post-insert load factor `38/53 ≈ 0.717` is *not* `< 0.7`
(`10*count < 7*cap` fails).  The source checks the load factor *before* an
insert, so the insert that lifts the count to `⌈0.7·53⌉ = 38` completes with
load factor above the threshold. -/
theorem c1_load_factor_counterexample :
    (runInserts (opsA 38)).map (fun s => (s.count, s.cap)) = some (38, 53) ∧
      (runInserts (opsA 38)).map (fun s => decide (10 * s.count < 7 * s.cap)) =
        some false := by decide

/-! ### C1 amended: the bound that does hold, for arbitrary insert sequences -/

theorem occupied_le_length (l : List HSlot) : occupiedCount l ≤ l.length :=
  List.length_filter_le _ _

theorem occupied_append_replicate (l : List HSlot) (m : Nat) :
    occupiedCount (l ++ List.replicate m none) = occupiedCount l := by
  unfold occupiedCount
  rw [List.filter_append]
  have h : (List.replicate m (none : HSlot)).filter Option.isSome = [] := by
    induction m with
    | zero => rfl
    | succ m ih => simp [List.replicate_succ, ih]
  rw [h, List.append_nil]

theorem findSlot_lt (slots : List HSlot) (cap : Nat) (key : HKey) (hpos : 0 < cap) :
    ∀ fuel idx step, idx < cap → ∀ j, findSlot slots cap key idx step fuel = some j → j < cap := by
  intro fuel
  induction fuel with
  | zero => intro idx step _ j h; exact absurd h (by simp [findSlot])
  | succ fuel ih =>
    intro idx step hidx j h
    unfold findSlot at h
    cases hslot : slots.getD idx none with
    | none => rw [hslot] at h; cases h; exact hidx
    | some kv =>
      rw [hslot] at h
      obtain ⟨k, v⟩ := kv
      dsimp only at h
      by_cases hk : k = key
      · rw [if_pos hk] at h; cases h; exact hidx
      · rw [if_neg hk] at h
        exact ih _ _ (Nat.mod_lt _ hpos) j h

theorem place_spec (s : TableState) (key : HKey) (v : Nat)
    (hlen : s.slots.length = s.cap) (_hpos : 0 < s.cap) :
    ∀ s', place s key v = some s' →
      s'.cap = s.cap ∧ s'.slots.length = s.cap ∧ s'.count ≤ s.count + 1 := by
  intro s' h
  unfold place at h
  cases hfind : findSlot s.slots s.cap key (hashSum key s.cap) 1 (2 * s.cap) with
  | none => rw [hfind] at h; cases h
  | some idx =>
    rw [hfind] at h
    dsimp only at h
    cases hslot : s.slots.getD idx none with
    | none =>
      rw [hslot] at h; cases h
      exact ⟨rfl, by simp [hlen], le_rfl⟩
    | some kv =>
      rw [hslot] at h; cases h
      exact ⟨rfl, by simp [hlen], Nat.le_succ _⟩

theorem reinsertAll_none (ins : TableState → HKey → Nat → Option TableState) :
    ∀ l : List HSlot, reinsertAll ins l none = none := by
  intro l
  induction l with
  | nil => rfl
  | cons slot rest ih => unfold reinsertAll; exact ih

theorem occupied_cons_none (rest : List HSlot) :
    occupiedCount ((none : HSlot) :: rest) = occupiedCount rest := by
  simp [occupiedCount]

theorem occupied_cons_some (kv : HKey × Nat) (rest : List HSlot) :
    occupiedCount (some kv :: rest) = occupiedCount rest + 1 := by
  simp [occupiedCount, List.length_cons]

theorem reinsertAll_spec (d : Nat) (C : Nat) (hC : 0 < C) :
    ∀ (l : List HSlot) (t : TableState),
      t.cap = C → t.slots.length = C →
      10 * (t.count + occupiedCount l) < 7 * C →
      ∀ s', reinsertAll (insertAux (d + 1)) l (some t) = some s' →
        s'.cap = C ∧ s'.slots.length = C ∧ s'.count ≤ t.count + occupiedCount l := by
  intro l
  induction l with
  | nil =>
    intro t hcap hlen _ s' h
    cases h
    exact ⟨hcap, hlen, by simp [occupiedCount]⟩
  | cons slot rest ih =>
    intro t hcap hlen hbound s' h
    cases slot with
    | none =>
      rw [occupied_cons_none] at hbound ⊢
      exact ih t hcap hlen hbound s' h
    | some kv =>
      obtain ⟨k, v⟩ := kv
      rw [occupied_cons_some] at hbound ⊢
      have htrig : ¬ (7 * t.cap ≤ 10 * t.count) := by rw [hcap]; omega
      have hstep : reinsertAll (insertAux (d + 1)) (some (k, v) :: rest) (some t) =
          reinsertAll (insertAux (d + 1)) rest (place t k v) := by
        show reinsertAll (insertAux (d + 1)) rest (insertAux (d + 1) t k v) =
          reinsertAll (insertAux (d + 1)) rest (place t k v)
        unfold insertAux
        rw [if_neg htrig]
      rw [hstep] at h
      cases hplace : place t k v with
      | none => rw [hplace, reinsertAll_none] at h; cases h
      | some t1 =>
        rw [hplace] at h
        obtain ⟨hc1, hl1, hn1⟩ :=
          place_spec t k v (hlen.trans hcap.symm) (by rw [hcap]; exact hC) t1 hplace
        have := ih t1 (hc1.trans hcap) (hl1.trans hcap) (by omega) s' h
        omega

theorem nextPrimeFrom_ge : ∀ (fuel n : Nat), n ≤ nextPrimeFrom n fuel := by
  intro fuel
  induction fuel with
  | zero => intro n; exact le_rfl
  | succ fuel ih =>
    intro n
    unfold nextPrimeFrom
    by_cases hp : tdIsPrime n
    · rw [if_pos hp]
    · rw [if_neg hp]
      exact le_trans (Nat.le_succ n) (ih (n + 1))

theorem insertAux_succ (d : Nat) (s : TableState) (key : HKey) (v : Nat) :
    insertAux (d + 1) s key v =
      if 7 * s.cap ≤ 10 * s.count then
        match reinsertAll (insertAux d) s.slots
            (some ⟨nextPrime (2 * s.cap),
                   s.slots ++ List.replicate (nextPrime (2 * s.cap) - s.cap) none,
                   0⟩) with
        | none => none
        | some t => place t key v
      else place s key v := rfl

theorem insertTable_load (s : TableState) (hlen : s.slots.length = s.cap)
    (hpos : 0 < s.cap) (key : HKey) (v : Nat) (s' : TableState)
    (h : insertTable s key v = some s') :
    s'.slots.length = s'.cap ∧ 0 < s'.cap ∧ 10 * s'.count ≤ 7 * s'.cap + 10 := by
  have h2 : insertAux 2 s key v = some s' := h
  rw [insertAux_succ 1] at h2
  by_cases htrig : 7 * s.cap ≤ 10 * s.count
  · rw [if_pos htrig] at h2
    have hge : 2 * s.cap ≤ nextPrime (2 * s.cap) := nextPrimeFrom_ge _ _
    have hocc : occupiedCount s.slots ≤ s.cap := hlen ▸ occupied_le_length s.slots
    cases hre : reinsertAll (insertAux 1) s.slots
        (some ⟨nextPrime (2 * s.cap),
               s.slots ++ List.replicate (nextPrime (2 * s.cap) - s.cap) none,
               0⟩) with
    | none => rw [hre] at h2; cases h2
    | some t =>
      rw [hre] at h2
      obtain ⟨htc, htl, htn⟩ :=
        reinsertAll_spec 0 (nextPrime (2 * s.cap)) (by omega) s.slots
          ⟨nextPrime (2 * s.cap),
           s.slots ++ List.replicate (nextPrime (2 * s.cap) - s.cap) none, 0⟩
          rfl (by simp [hlen]; omega) (by simp; omega) t hre
      obtain ⟨hc1, hl1, hn1⟩ :=
        place_spec t key v (htl.trans htc.symm) (by omega) s' h2
      refine ⟨by omega, by omega, ?_⟩
      simp only [htc] at htn hn1 hc1 ⊢
      omega
  · rw [if_neg htrig] at h2
    obtain ⟨hc1, hl1, hn1⟩ := place_spec s key v hlen hpos s' h2
    exact ⟨by omega, by omega, by omega⟩

theorem runInserts_none (ops : List (HKey × Nat)) :
    ops.foldl (fun acc kv => acc.bind (fun s => insertTable s kv.1 kv.2)) none = none := by
  induction ops with
  | nil => rfl
  | cons kv rest ih => simpa using ih

theorem runFrom_inv :
    ∀ (ops : List (HKey × Nat)) (s0 : TableState),
      s0.slots.length = s0.cap → 0 < s0.cap →
      ∀ s, ops.foldl (fun acc kv => acc.bind (fun t => insertTable t kv.1 kv.2))
          (some s0) = some s →
        s.slots.length = s.cap ∧ 0 < s.cap ∧
          (s = s0 ∨ 10 * s.count ≤ 7 * s.cap + 10) := by
  intro ops
  induction ops with
  | nil =>
    intro s0 hl hp s h
    cases h
    exact ⟨hl, hp, Or.inl rfl⟩
  | cons kv rest ih =>
    intro s0 hl hp s h
    rw [List.foldl_cons] at h
    cases hins : insertTable s0 kv.1 kv.2 with
    | none =>
      rw [show (some s0).bind (fun t => insertTable t kv.1 kv.2) = none by
            simp [hins]] at h
      rw [runInserts_none] at h
      cases h
    | some s1 =>
      rw [show (some s0).bind (fun t => insertTable t kv.1 kv.2) = some s1 by
            simp [hins]] at h
      obtain ⟨hl1, hp1, hb1⟩ := insertTable_load s0 hl hp kv.1 kv.2 s1 hins
      obtain ⟨hl2, hp2, hb2⟩ := ih s1 hl1 hp1 s h
      refine ⟨hl2, hp2, Or.inr ?_⟩
      cases hb2 with
      | inl he => rw [he]; exact hb1
      | inr hb => exact hb

/-- C1 amended.  For every sequence of inserts that runs to completion, the
load-factor bound that actually holds after the final insert is
`itemCount/capacity < 0.7 + 1/capacity`, i.e. `10·itemCount ≤ 7·capacity + 10`
(the pre-insert threshold check lets exactly one insert land on or above
0.7, as `c1_load_factor_counterexample` shows with `38/53 ≈ 0.717`).
`itemCount` is the maintained counter of the source; the stale slot copies
that `table.resize` leaves behind after a rehash are not counted by it. -/
theorem c1_load_factor_amended :
    ∀ (ops : List (HKey × Nat)) (s : TableState),
      runInserts ops = some s → 10 * s.count ≤ 7 * s.cap + 10 := by
  intro ops s h
  obtain ⟨_, _, hb⟩ := runFrom_inv ops emptyTable (by decide) (by decide) s h
  cases hb with
  | inl he => rw [he]; decide
  | inr hb => exact hb

/-- C1 witness: the amended bound applied to the concrete 38-insert run. -/
theorem c1_load_factor_amended_witness :
    10 * ((runInserts (opsA 38)).getD emptyTable).count ≤
      7 * ((runInserts (opsA 38)).getD emptyTable).cap + 10 :=
  c1_load_factor_amended (opsA 38) _ (by decide)

/-! ### C2: when the rehash fires -/

/-- C2 counterexample.  Inserting 38 distinct keys (`"a"*1 … "a"*38`) into
the fresh capacity-53 table triggers *no* rehash: all 38 inserts succeed
(`itemCount = 38`) and the capacity is still 53, not 107.  The pre-insert
load-factor check `itemCount/capacity ≥ 0.7` first fires on the 39th
insert (`38/53 ≥ 0.7`), not the 38th (`37/53 < 0.7`). -/
theorem c2_rehash_counterexample :
    (runInserts (opsA 38)).map (fun s => s.count) = some 38 ∧
      (runInserts (opsA 38)).map (fun s => s.cap) = some 53 ∧ (53 : Nat) ≠ 107 := by
  decide

/-- C2 amended.  Starting from the empty capacity-53 store, inserting 39
distinct keys causes exactly one rehash, triggered by the 39th insert
(pre-insert load factor `38/53 ≥ 0.7`); the capacity after that rehash is
`nextPrime(2·53) = 107`, the smallest prime `≥ 106` (107 is prime, 106 is
not).  After 38 inserts the capacity is still 53. -/
theorem c2_rehash_on_39th_insert :
    (runInserts (opsA 38)).map (fun s => s.cap) = some 53 ∧
      (runInserts (opsA 39)).map (fun s => s.cap) = some 107 ∧
      nextPrime (2 * 53) = 107 ∧ Nat.Prime 107 ∧ ¬ Nat.Prime 106 := by decide

/-! ### C3: heap insert at capacity -/

/-- C3 (status: code_bug).  The source's only order-insertion path
(`orderHeap[orderHeapSize++] = o; orderHeapifyUp(orderHeapSize - 1);`) has
no capacity check: on a state already holding 300 items (the size of
`Domain::Order orderHeap[300]`) it stores through `orderHeap[300]`, past the
end of the array — undefined behaviour (modelled `none`), not the
CapacityExceeded failure the spec demands.  Below 300 items the insert does
append and sift up as described: inserting priority 9 into 299 copies of
priority 5 bubbles it to the root. -/
theorem c3_insert_at_capacity_out_of_bounds :
    orderInsert (List.replicate 300 ⟨5, 0⟩) ⟨9, 1⟩ = none ∧
      (List.replicate 300 (⟨5, 0⟩ : OrderRec)).length = 300 ∧
      orderInsert (List.replicate 299 ⟨5, 0⟩) ⟨9, 1⟩ =
        some (⟨9, 1⟩ :: List.replicate 299 ⟨5, 0⟩) := by decide

/-! ### C8: the heap property is preserved by insert (append + sift-up) -/

theorem length_swapAt (l : List OrderRec) (i j : Nat) :
    (swapAt l i j).length = l.length := by
  simp [swapAt]

theorem prioAt_swap_fst (l : List OrderRec) (p j : Nat)
    (hp : p < l.length) (hpj : p ≠ j) :
    prioAt (swapAt l p j) p = prioAt l j := by
  unfold prioAt swapAt
  rw [List.getD_eq_getElem?_getD, List.getElem?_set_ne (fun h => hpj h.symm),
    List.getElem?_set_eq_of_lt _ hp]
  rfl

theorem prioAt_swap_snd (l : List OrderRec) (p j : Nat) (hj : j < l.length) :
    prioAt (swapAt l p j) j = prioAt l p := by
  unfold prioAt swapAt
  rw [List.getD_eq_getElem?_getD,
    List.getElem?_set_eq_of_lt _ (by simpa using hj)]
  rfl

theorem prioAt_swap_other (l : List OrderRec) (p j x : Nat)
    (hxp : x ≠ p) (hxj : x ≠ j) :
    prioAt (swapAt l p j) x = prioAt l x := by
  unfold prioAt swapAt
  rw [List.getD_eq_getElem?_getD, List.getElem?_set_ne (fun h => hxj h.symm),
    List.getElem?_set_ne (fun h => hxp h.symm), ← List.getD_eq_getElem?_getD]

theorem almostHeap_swap (l : List OrderRec) (j : Nat) (hj : j < l.length)
    (hj0 : 0 < j) (hah : almostHeap l j)
    (hguard : prioAt l (parentIdx j) < prioAt l j) :
    almostHeap (swapAt l (parentIdx j) j) (parentIdx j) := by
  obtain ⟨h1, h2⟩ := hah
  have hpj : parentIdx j < j := by unfold parentIdx; omega
  have hp : parentIdx j < l.length := lt_trans hpj hj
  have hpne : parentIdx j ≠ j := Nat.ne_of_lt hpj
  constructor
  · intro i hi hi0 hip
    rw [length_swapAt] at hi
    by_cases hij : i = j
    · subst hij
      rw [prioAt_swap_snd l _ i hj, prioAt_swap_fst l _ i hp hpne]
      exact le_of_lt hguard
    · rw [prioAt_swap_other l _ j i hip hij]
      by_cases hqp : parentIdx i = parentIdx j
      · rw [hqp, prioAt_swap_fst l _ j hp hpne]
        exact le_trans (hqp ▸ h1 i hi hi0 hij) (le_of_lt hguard)
      · by_cases hqj : parentIdx i = j
        · rw [hqj, prioAt_swap_snd l _ j hj]
          exact h2 i hi hqj hj0
        · rw [prioAt_swap_other l _ j _ hqp hqj]
          exact h1 i hi hi0 hij
  · intro c hc hcp hp0
    rw [length_swapAt] at hc
    have hg : parentIdx (parentIdx j) < parentIdx j := by
      unfold parentIdx at hp0 ⊢
      omega
    have hgp : parentIdx (parentIdx j) ≠ parentIdx j := Nat.ne_of_lt hg
    have hgj : parentIdx (parentIdx j) ≠ j := Nat.ne_of_lt (lt_trans hg hpj)
    have hPG : prioAt l (parentIdx j) ≤ prioAt l (parentIdx (parentIdx j)) :=
      h1 (parentIdx j) hp hp0 hpne
    rw [prioAt_swap_other l _ j _ hgp hgj]
    by_cases hcj : c = j
    · subst hcj
      rw [prioAt_swap_snd l _ c hj]
      exact hPG
    · have hcp' : c ≠ parentIdx j := by
        intro he
        rw [he] at hcp
        unfold parentIdx at hcp hp0
        omega
      have hc0 : 0 < c := by
        rcases Nat.eq_zero_or_pos c with h0 | h0
        · rw [h0] at hcp
          unfold parentIdx at hcp hp0
          omega
        · exact h0
      rw [prioAt_swap_other l _ j c hcp' hcj]
      exact le_trans (hcp ▸ h1 c hc hc0 hcj) hPG

theorem heapifyUp_maxHeap :
    ∀ (fuel : Nat) (l : List OrderRec) (j : Nat),
      j < l.length → j < fuel → almostHeap l j →
      maxHeapProp (heapifyUpFuel fuel l j) := by
  intro fuel
  induction fuel with
  | zero => intro l j _ hf; omega
  | succ fuel ih =>
    intro l j hj hf hah
    unfold heapifyUpFuel
    by_cases hj0 : j = 0
    · rw [if_pos hj0]
      intro i hi hi0
      exact hah.1 i hi hi0 (by omega)
    · rw [if_neg hj0]
      by_cases hguard : prioAt l j ≤ prioAt l (parentIdx j)
      · rw [if_pos hguard]
        intro i hi hi0
        by_cases hij : i = j
        · subst hij; exact hguard
        · exact hah.1 i hi hi0 hij
      · rw [if_neg hguard]
        have hpj : parentIdx j < j := by unfold parentIdx; omega
        apply ih
        · rw [length_swapAt]; omega
        · omega
        · exact almostHeap_swap l j hj (by omega) hah (by omega)

theorem prioAt_append_lt (l : List OrderRec) (o : OrderRec) (i : Nat)
    (hi : i < l.length) : prioAt (l ++ [o]) i = prioAt l i := by
  unfold prioAt
  rw [List.getD_eq_getElem?_getD, List.getElem?_append_left hi,
    ← List.getD_eq_getElem?_getD]

theorem almostHeap_append (l : List OrderRec) (o : OrderRec)
    (hmax : maxHeapProp l) : almostHeap (l ++ [o]) l.length := by
  constructor
  · intro i hi hi0 hin
    rw [List.length_append] at hi
    have hilt : i < l.length := by simp at hi; omega
    have hplt : parentIdx i < l.length := by unfold parentIdx at *; omega
    rw [prioAt_append_lt l o i hilt, prioAt_append_lt l o _ hplt]
    exact hmax i hilt hi0
  · intro c hc hcp hn0
    rw [List.length_append] at hc
    unfold parentIdx at hcp
    simp at hc
    omega

/-- C8 (confirmed).  Appending an order at the end of the heap array and
sifting it up (`orderHeap[orderHeapSize++] = o; orderHeapifyUp(…)`)
restores the max-heap property on every state that satisfied it: for every
index `i > 0`, `priority(parent(i)) ≥ priority(i)` holds after the insert
completes. -/
theorem c8_max_heap_after_insert :
    ∀ (l : List OrderRec) (o : OrderRec) (l' : List OrderRec),
      maxHeapProp l → orderInsert l o = some l' → maxHeapProp l' := by
  intro l o l' hmax h
  unfold orderInsert at h
  by_cases hlen : l.length < 300
  · rw [if_pos hlen] at h
    cases h
    apply heapifyUp_maxHeap (l.length + 1) (l ++ [o]) l.length
    · simp
    · omega
    · exact almostHeap_append l o hmax
  · rw [if_neg hlen] at h
    cases h

/-- C8 witness: inserting priority 9 into the singleton heap of priority 5. -/
theorem c8_max_heap_after_insert_witness :
    maxHeapProp [⟨9, 1⟩, ⟨5, 0⟩] :=
  c8_max_heap_after_insert [⟨5, 0⟩] ⟨9, 1⟩ [⟨9, 1⟩, ⟨5, 0⟩]
    (by intro i hi h0; simp at hi; omega) (by rfl)

/-! ### C5: nearest-neighbour tour scenario -/

/-- C5 counterexample.  On the Scenario-D graph the tour's closing leg
`(3,0)` — whose edge was never added — is *not* reported as Unreachable:
`displayTSPRoute` prints the sentinel matrix entry 99999 as an ordinary
finite distance and adds it into the total (7+10+2+9+6+99999 = 100033). -/
theorem c5_final_leg_counterexample :
    (tourLegs (buildGraph 6 demoEdges)
        (tspApprox (buildGraph 6 demoEdges) 0 6)).getLast? = some (3, 0, 99999) ∧
      tourTotal (buildGraph 6 demoEdges) (tspApprox (buildGraph 6 demoEdges) 0 6) =
        100033 := by decide

/-- C5 amended.  On the 6-vertex Scenario-D graph the nearest-neighbour tour
from vertex 0 visits `0,1,2,5,4,3` and closes with the leg `(3,0)`; that
edge is absent from the matrix (entry = sentinel 99999), and the display
reports the leg with the finite numeric distance 99999 (summing it into the
total) rather than with any explicit Unreachable outcome. -/
theorem c5_tour_scenario :
    tspApprox (buildGraph 6 demoEdges) 0 6 = [0, 1, 2, 5, 4, 3, 0] ∧
      tourLegs (buildGraph 6 demoEdges) [0, 1, 2, 5, 4, 3, 0] =
        [(0, 1, 7), (1, 2, 10), (2, 5, 2), (5, 4, 9), (4, 3, 6), (3, 0, 99999)] ∧
      buildGraph 6 demoEdges 3 0 = 99999 := by decide

/-! ### C4: what Dijkstra reports for unreachable vertices -/

theorem getD_set_int (l : List Int) (i : Nat) (x : Int) (v : Nat) :
    (l.set i x).getD v 0 = if i = v ∧ i < l.length then x else l.getD v 0 := by
  rw [List.getD_eq_getElem?_getD, List.getElem?_set]
  by_cases h1 : i = v
  · subst h1
    by_cases h2 : i < l.length
    · simp [h2]
    · rw [if_pos rfl, if_neg h2, if_neg (by tauto)]
      rw [List.getD_eq_default l 0 (by omega)]
      rfl
  · rw [if_neg h1, if_neg (by tauto), ← List.getD_eq_getElem?_getD]

theorem getD_replicate_int (n : Nat) (a : Int) (v : Nat) :
    (List.replicate n a).getD v 0 = if v < n then a else 0 := by
  rw [List.getD_eq_getElem?_getD, List.getElem?_replicate]
  by_cases h : v < n
  · simp [h]
  · simp [h]

theorem buildGraph_aux_ok :
    ∀ (edges : List (Nat × Nat × Int)) (g0 : Nat → Nat → Int),
      GraphOK g0 →
      (∀ e ∈ edges, e.1 ≠ e.2.1 ∧ 1 ≤ e.2.2 ∧ e.2.2 ≤ 99999) →
      GraphOK (edges.foldl (fun g e => addEdgeG g e.1 e.2.1 e.2.2) g0) := by
  intro edges
  induction edges with
  | nil => intro g0 hg _; exact hg
  | cons e rest ih =>
    intro g0 hg hwf
    rw [List.foldl_cons]
    apply ih
    · obtain ⟨huv, hw1, hw2⟩ := hwf e (List.mem_cons_self e rest)
      constructor
      · intro i
        unfold addEdgeG
        rw [if_neg (by rintro (⟨h1, h2⟩ | ⟨h1, h2⟩) <;> exact huv (h1 ▸ h2 ▸ rfl))]
        exact hg.1 i
      · intro i j hij
        unfold addEdgeG
        by_cases hc : (i = e.1 ∧ j = e.2.1) ∨ (i = e.2.1 ∧ j = e.1)
        · rw [if_pos hc]; exact ⟨hw1, hw2⟩
        · rw [if_neg hc]; exact hg.2 i j hij
    · intro e' he'; exact hwf e' (List.mem_cons_of_mem e he')

theorem buildGraph_ok (n : Nat) (edges : List (Nat × Nat × Int))
    (hwf : ∀ e ∈ edges, e.1 ≠ e.2.1 ∧ 1 ≤ e.2.2 ∧ e.2.2 ≤ 99999) :
    GraphOK (buildGraph n edges) := by
  apply buildGraph_aux_ok edges (initGraph n) _ hwf
  constructor
  · intro i; simp [initGraph]
  · intro i j hij; simp [initGraph, hij]

theorem relaxStep_ub (g : Nat → Nat → Int) (u : Nat)
    (st : List Int × List (Int × Nat)) (j v : Nat) (c : Int)
    (h : st.1.getD v 0 ≤ c) : (relaxStep g u st j).1.getD v 0 ≤ c := by
  unfold relaxStep
  split_ifs with hcond
  · show ((st.1.set j _).getD v 0) ≤ c
    rw [getD_set_int]
    split_ifs with h2
    · obtain ⟨hjv, _⟩ := h2
      subst hjv
      omega
    · exact h
  · exact h

theorem relaxFold_ub (g : Nat → Nat → Int) (u : Nat) :
    ∀ (l : List Nat) (st : List Int × List (Int × Nat)) (v : Nat) (c : Int),
      st.1.getD v 0 ≤ c → (l.foldl (relaxStep g u) st).1.getD v 0 ≤ c := by
  intro l
  induction l with
  | nil => intro st v c h; exact h
  | cons j rest ih =>
    intro st v c h
    rw [List.foldl_cons]
    exact ih _ v c (relaxStep_ub g u st j v c h)

theorem relaxStep_nonneg (g : Nat → Nat → Int) (hg : GraphOK g) (u : Nat)
    (st : List Int × List (Int × Nat)) (j : Nat)
    (h : ∀ w, 0 ≤ st.1.getD w 0) : ∀ w, 0 ≤ (relaxStep g u st j).1.getD w 0 := by
  intro w
  unfold relaxStep
  split_ifs with hcond
  · show 0 ≤ ((st.1.set j _).getD w 0)
    rw [getD_set_int]
    split_ifs with h2
    · have huj : u ≠ j := by
        intro he
        exact hcond.1 (he ▸ hg.1 u)
      have := (hg.2 u j huj).1
      have := h u
      omega
    · exact h w
  · exact h w

theorem relaxFold_nonneg (g : Nat → Nat → Int) (hg : GraphOK g) (u : Nat) :
    ∀ (l : List Nat) (st : List Int × List (Int × Nat)),
      (∀ w, 0 ≤ st.1.getD w 0) →
      ∀ w, 0 ≤ (l.foldl (relaxStep g u) st).1.getD w 0 := by
  intro l
  induction l with
  | nil => intro st h; exact h
  | cons j rest ih =>
    intro st h
    rw [List.foldl_cons]
    exact ih _ (relaxStep_nonneg g hg u st j h)

theorem dijkstraLoop_nil (g : Nat → Nat → Int) (n : Nat) :
    ∀ fuel dist, dijkstraLoop g n fuel [] dist = some dist := by
  intro fuel dist
  cases fuel <;> rfl

theorem dijkstraLoop_cons_zero (g : Nat → Nat → Int) (n : Nat)
    (d : Int) (u : Nat) (rest : List (Int × Nat)) (dist : List Int) :
    dijkstraLoop g n 0 ((d, u) :: rest) dist = none := rfl

theorem dijkstraLoop_cons_succ (g : Nat → Nat → Int) (n fuel : Nat)
    (d : Int) (u : Nat) (rest : List (Int × Nat)) (dist : List Int) :
    dijkstraLoop g n (fuel + 1) ((d, u) :: rest) dist =
      if dist.getD u 0 < d then dijkstraLoop g n fuel rest dist
      else dijkstraLoop g n fuel (relaxAll g u n dist rest).2
        (relaxAll g u n dist rest).1 := rfl

theorem dijkstraLoop_bounds (g : Nat → Nat → Int) (n : Nat) (hg : GraphOK g) :
    ∀ (fuel : Nat) (pq : List (Int × Nat)) (dist dist' : List Int),
      (∀ w, 0 ≤ dist.getD w 0) → (∀ v, v < n → dist.getD v 0 ≤ 99999) →
      dijkstraLoop g n fuel pq dist = some dist' →
      (∀ w, 0 ≤ dist'.getD w 0) ∧ (∀ v, v < n → dist'.getD v 0 ≤ 99999) := by
  intro fuel
  induction fuel with
  | zero =>
    intro pq dist dist' h0 h1 h
    cases pq with
    | nil => rw [dijkstraLoop_nil] at h; cases h; exact ⟨h0, h1⟩
    | cons du rest =>
      obtain ⟨d, u⟩ := du
      rw [dijkstraLoop_cons_zero] at h
      cases h
  | succ fuel ih =>
    intro pq dist dist' h0 h1 h
    cases pq with
    | nil => rw [dijkstraLoop_nil] at h; cases h; exact ⟨h0, h1⟩
    | cons du rest =>
      obtain ⟨d, u⟩ := du
      rw [dijkstraLoop_cons_succ] at h
      split_ifs at h with hskip
      · exact ih rest dist dist' h0 h1 h
      · refine ih _ _ dist' ?_ ?_ h
        · exact relaxFold_nonneg g hg u (List.range n) (dist, rest) h0
        · intro v hv
          exact relaxFold_ub g u (List.range n) (dist, rest) v 99999 (h1 v hv)

theorem relaxFirst_aux (g : Nat → Nat → Int) (hg : GraphOK g) (src : Nat) :
    ∀ (l : List Nat) (st : List Int × List (Int × Nat)),
      st.1.getD src 0 = 0 →
      (l.foldl (relaxStep g src) st).1.getD src 0 = 0 ∧
      (∀ v ∈ l, v ≠ src → (l.foldl (relaxStep g src) st).1.getD v 0 ≤ 99999) := by
  intro l
  induction l with
  | nil =>
    intro st h
    exact ⟨h, by intro v hv; cases hv⟩
  | cons j rest ih =>
    intro st hsrc0
    rw [List.foldl_cons]
    have hsrc' : (relaxStep g src st j).1.getD src 0 = 0 := by
      unfold relaxStep
      split_ifs with hc
      · have hjs : j ≠ src := by
          intro he
          exact hc.1 (he ▸ hg.1 src)
        show ((st.1.set j _).getD src 0) = 0
        rw [getD_set_int, if_neg (by tauto)]
        exact hsrc0
      · exact hsrc0
    obtain ⟨hA, hB⟩ := ih (relaxStep g src st j) hsrc'
    refine ⟨hA, ?_⟩
    intro v hv hvs
    rcases List.mem_cons.mp hv with he | hm
    · subst he
      have hstep : (relaxStep g src st v).1.getD v 0 ≤ 99999 := by
        unfold relaxStep
        split_ifs with hc
        · show ((st.1.set v _).getD v 0) ≤ 99999
          rw [getD_set_int]
          split_ifs with h2
          · rw [hsrc0]
            have := (hg.2 src v (fun he => hvs he.symm)).2
            omega
          · rw [List.getD_eq_default st.1 0 (by omega)]
            omega
        · push_neg at hc
          have hgnz : g src v ≠ 0 := by
            have h1 := (hg.2 src v (fun he => hvs he.symm)).1
            omega
          have h2 := hc hgnz
          have h3 := (hg.2 src v (fun he => hvs he.symm)).2
          rw [hsrc0] at h2
          omega
      exact relaxFold_ub g src rest _ v 99999 hstep
    · exact hB v hm hvs

/-- C4 counterexample.  In the 2-vertex graph with no edges, vertex 1 has no
path from source 0, yet `dijkstraOptimized` reports the finite numeric
distance 99999 for it (the sentinel matrix entry is relaxed like a real
edge), not the `-1` unreachable marker and not any explicit unreachable
outcome. -/
theorem c4_unreachable_counterexample :
    ¬ Reaches [] 0 1 ∧
      (dijkstraRun 5 (buildGraph 2 []) 2 0).map (fun dist => dijkstraReport dist 1) =
        some 99999 ∧ (99999 : Int) ≠ -1 := by
  refine ⟨?_, by decide, by decide⟩
  intro h
  rcases Relation.ReflTransGen.cases_head h with h1 | ⟨c, ⟨w, hw⟩, _⟩
  · exact absurd h1 (by decide)
  · rcases hw with hw | hw <;> simp at hw

/-- C4 amended.  For every initialized graph whose `addDeliveryEdge` calls
use distinct endpoints and weights in `[1, 99999]`, and every source
`src < n`, `dijkstraOptimized` assigns *every* vertex (reachable or not) a
finite distance in `[0, 99999·…]` bounded by 99999 — the sentinel entries
are relaxed like real edges — so the printed report for every vertex is
that finite number and the `-1` unreachable marker is never produced.
Unreachable vertices are thus reported as finite sentinel-derived numbers,
never as an explicit unreachable outcome. -/
theorem c4_every_vertex_reported_finite :
    ∀ (n : Nat) (edges : List (Nat × Nat × Int)) (src fuel : Nat) (dist : List Int),
      0 < n → src < n →
      (∀ e ∈ edges, e.1 ≠ e.2.1 ∧ 1 ≤ e.2.2 ∧ e.2.2 ≤ 99999) →
      dijkstraRun fuel (buildGraph n edges) n src = some dist →
      ∀ v, v < n →
        0 ≤ dist.getD v 0 ∧ dist.getD v 0 ≤ 99999 ∧
        dijkstraReport dist v = dist.getD v 0 ∧ dijkstraReport dist v ≠ -1 := by
  intro n edges src fuel dist hn hsrc hwf hrun
  have hg : GraphOK (buildGraph n edges) := buildGraph_ok n edges hwf
  unfold dijkstraRun at hrun
  have hd0src : ((List.replicate n (10 ^ 9 : Int)).set src 0).getD src 0 = 0 := by
    rw [getD_set_int, if_pos ⟨rfl, by simpa using hsrc⟩]
  have hd0nonneg : ∀ w, 0 ≤ ((List.replicate n (10 ^ 9 : Int)).set src 0).getD w 0 := by
    intro w
    rw [getD_set_int]
    split_ifs with h2
    · omega
    · rw [getD_replicate_int]
      split_ifs <;> omega
  cases fuel with
  | zero => rw [dijkstraLoop_cons_zero] at hrun; cases hrun
  | succ fuel =>
    rw [dijkstraLoop_cons_succ, hd0src, if_neg (lt_irrefl 0)] at hrun
    obtain ⟨hA, hB⟩ := relaxFirst_aux (buildGraph n edges) hg src (List.range n)
      ((List.replicate n (10 ^ 9 : Int)).set src 0, []) hd0src
    have hub : ∀ v, v < n →
        (relaxAll (buildGraph n edges) src n
          ((List.replicate n (10 ^ 9 : Int)).set src 0) []).1.getD v 0 ≤ 99999 := by
      intro v hv
      by_cases hvs : v = src
      · subst hvs
        show ((List.range n).foldl (relaxStep _ v)
          (((List.replicate n (10 ^ 9 : Int)).set v 0), [])).1.getD v 0 ≤ 99999
        rw [hA]
        omega
      · exact hB v (List.mem_range.mpr hv) hvs
    have hnn : ∀ w, 0 ≤
        (relaxAll (buildGraph n edges) src n
          ((List.replicate n (10 ^ 9 : Int)).set src 0) []).1.getD w 0 :=
      relaxFold_nonneg (buildGraph n edges) hg src (List.range n) _ hd0nonneg
    obtain ⟨hfin0, hfin1⟩ :=
      dijkstraLoop_bounds (buildGraph n edges) n hg fuel _ _ dist hnn hub hrun
    intro v hv
    have h99 : dist.getD v 0 ≤ 99999 := hfin1 v hv
    have h0 : 0 ≤ dist.getD v 0 := hfin0 v
    have hne : dist.getD v 0 ≠ 10 ^ 9 := by omega
    unfold dijkstraReport
    rw [if_neg hne]
    exact ⟨h0, h99, rfl, by omega⟩

/-- C4 witness: the amended theorem applied to the edgeless 2-vertex graph,
source 0, vertex 1. -/
theorem c4_every_vertex_reported_finite_witness :
    0 ≤ ([0, 99999] : List Int).getD 1 0 ∧ ([0, 99999] : List Int).getD 1 0 ≤ 99999 ∧
      dijkstraReport [0, 99999] 1 = ([0, 99999] : List Int).getD 1 0 ∧
      dijkstraReport [0, 99999] 1 ≠ -1 :=
  c4_every_vertex_reported_finite 2 [] 0 5 [0, 99999] (by norm_num) (by norm_num)
    (by intro e he; cases he) (by decide) 1 (by norm_num)

/-! ### C10: the tour visits every vertex once and returns to the start -/

theorem getD_replicate_bool (n : Nat) (a : Bool) (v : Nat) :
    (List.replicate n a).getD v true = if v < n then a else true := by
  rw [List.getD_eq_getElem?_getD, List.getElem?_replicate]
  by_cases h : v < n
  · simp [h]
  · simp [h]

theorem getD_set_bool (l : List Bool) (i : Nat) (x : Bool) (v : Nat) :
    (l.set i x).getD v true = if i = v ∧ i < l.length then x else l.getD v true := by
  rw [List.getD_eq_getElem?_getD, List.getElem?_set]
  by_cases h1 : i = v
  · subst h1
    by_cases h2 : i < l.length
    · simp [h2]
    · rw [if_pos rfl, if_neg h2, if_neg (by tauto)]
      rw [List.getD_eq_default l true (by omega)]
      rfl
  · rw [if_neg h1, if_neg (by tauto), ← List.getD_eq_getElem?_getD]

theorem buildGraph_aux_lt :
    ∀ (edges : List (Nat × Nat × Int)) (g0 : Nat → Nat → Int),
      (∀ i j, g0 i j < 10 ^ 9) →
      (∀ e ∈ edges, e.2.2 < 10 ^ 9) →
      ∀ i j, (edges.foldl (fun g e => addEdgeG g e.1 e.2.1 e.2.2) g0) i j < 10 ^ 9 := by
  intro edges
  induction edges with
  | nil => intro g0 hg0 _ i j; exact hg0 i j
  | cons e rest ih =>
    intro g0 hg0 hwf i j
    rw [List.foldl_cons]
    apply ih
    · intro i' j'
      unfold addEdgeG
      split_ifs with hc
      · exact hwf e (List.mem_cons_self e rest)
      · exact hg0 i' j'
    · intro e' he'; exact hwf e' (List.mem_cons_of_mem e he')

theorem buildGraph_lt (n : Nat) (edges : List (Nat × Nat × Int))
    (hwf : ∀ e ∈ edges, e.2.2 < 10 ^ 9) :
    ∀ i j, buildGraph n edges i j < 10 ^ 9 := by
  apply buildGraph_aux_lt edges (initGraph n) _ hwf
  intro i j
  unfold initGraph
  split_ifs <;> norm_num

theorem selFold_spec (g : Nat → Nat → Int) (visited : List Bool) (cur n : Nat)
    (hglt : ∀ i j, g i j < 10 ^ 9) :
    ∀ (l : List Nat) (acc : Int × Option Nat),
      (∀ x ∈ l, x < n) →
      (∀ j', acc.2 = some j' → j' < n ∧ visited.getD j' true = false) →
      (acc.2 = none → acc.1 = 10 ^ 9) →
      ((∃ j ∈ l, j < n ∧ visited.getD j true = false) ∨ acc.2 ≠ none) →
      ∃ j₀, (l.foldl (selStep g visited cur) acc).2 = some j₀ ∧ j₀ < n ∧
        visited.getD j₀ true = false := by
  intro l
  induction l with
  | nil =>
    intro acc _ hP hnone hprog
    rcases hprog with ⟨j, hj, _⟩ | hne
    · cases hj
    · cases hacc : acc.2 with
      | none => exact absurd hacc hne
      | some j₀ => exact ⟨j₀, hacc, hP j₀ hacc⟩
  | cons j l ih =>
    intro acc hlt hP hnone hprog
    rw [List.foldl_cons]
    by_cases hc : visited.getD j true = false ∧ g cur j < acc.1
    · -- the step records j as the new nearest
      have hstep : selStep g visited cur acc j = (g cur j, some j) := by
        unfold selStep; rw [if_pos hc]
      rw [hstep]
      apply ih
      · intro x hx; exact hlt x (List.mem_cons_of_mem j hx)
      · intro j' hj'
        cases hj'
        exact ⟨hlt j (List.mem_cons_self j l), hc.1⟩
      · intro hcontra; cases hcontra
      · right; simp
    · have hstep : selStep g visited cur acc j = acc := by
        unfold selStep; rw [if_neg hc]
      rw [hstep]
      apply ih
      · intro x hx; exact hlt x (List.mem_cons_of_mem j hx)
      · exact hP
      · exact hnone
      · rcases hprog with ⟨j', hj', hj'n, hj'unv⟩ | hne
        · rcases List.mem_cons.mp hj' with he | hm
          · subst he
            -- j itself is unvisited, yet the condition failed: the
            -- accumulator already holds some nearest (else minDist = 1e9
            -- and g cur j < 1e9 would have fired)
            right
            intro haccnone
            have h1 := hnone haccnone
            exact hc ⟨hj'unv, by rw [h1]; exact hglt cur j'⟩
          · exact Or.inl ⟨j', hm, hj'n, hj'unv⟩
        · exact Or.inr hne

theorem selectNearest_spec (g : Nat → Nat → Int) (visited : List Bool) (cur n : Nat)
    (hglt : ∀ i j, g i j < 10 ^ 9)
    (hex : ∃ j, j < n ∧ visited.getD j true = false) :
    ∃ j₀, (selectNearest g visited cur n).2 = some j₀ ∧ j₀ < n ∧
      visited.getD j₀ true = false := by
  obtain ⟨j, hjn, hjunv⟩ := hex
  apply selFold_spec g visited cur n hglt (List.range n) ((10 ^ 9 : Int), none)
  · intro x hx; exact List.mem_range.mp hx
  · intro j' hj'; cases hj'
  · intro _; rfl
  · exact Or.inl ⟨j, List.mem_range.mpr hjn, hjn, hjunv⟩

theorem tourLoop_zero (g : Nat → Nat → Int) (n : Nat)
    (st : Nat × List Bool × List Nat) : tourLoop g n 0 st = st := rfl

theorem tourLoop_succ (g : Nat → Nat → Int) (n k cur : Nat)
    (visited : List Bool) (route : List Nat) :
    tourLoop g n (k + 1) (cur, visited, route) =
      match (selectNearest g visited cur n).2 with
      | some j => tourLoop g n k (j, visited.set j true, route ++ [j])
      | none => tourLoop g n k (cur, visited, route) := rfl

theorem tourLoop_spec (g : Nat → Nat → Int) (n : Nat)
    (hglt : ∀ i j, g i j < 10 ^ 9) (start : Nat) :
    ∀ (k cur : Nat) (visited : List Bool) (route : List Nat),
      visited.length = n →
      route.Nodup →
      (∀ x ∈ route, x < n) →
      (∀ j, j < n → (visited.getD j true = true ↔ j ∈ route)) →
      route.head? = some start →
      route.length + k = n →
      (tourLoop g n k (cur, visited, route)).2.2.Nodup ∧
      (∀ x ∈ (tourLoop g n k (cur, visited, route)).2.2, x < n) ∧
      (tourLoop g n k (cur, visited, route)).2.2.head? = some start ∧
      (tourLoop g n k (cur, visited, route)).2.2.length = n := by
  intro k
  induction k with
  | zero =>
    intro cur visited route _ hnd hbd _ hhd hlen
    rw [tourLoop_zero]
    dsimp only
    exact ⟨hnd, hbd, hhd, by omega⟩
  | succ k ih =>
    intro cur visited route hvlen hnd hbd hiff hhd hlen
    rw [tourLoop_succ]
    have hex : ∃ j, j < n ∧ visited.getD j true = false := by
      by_contra hall
      push_neg at hall
      have hsub : List.range n ⊆ route := by
        intro j hj
        have hjn := List.mem_range.mp hj
        have := hall j hjn
        exact (hiff j hjn).mp (by
          cases hb : visited.getD j true with
          | false => exact absurd hb this
          | true => rfl)
      have := (List.subperm_of_subset (List.nodup_range n) hsub).length_le
      rw [List.length_range] at this
      omega
    obtain ⟨j₀, hsel, hj₀n, hj₀unv⟩ := selectNearest_spec g visited cur n hglt hex
    rw [hsel]
    have hj₀notmem : j₀ ∉ route := by
      intro hmem
      have := (hiff j₀ hj₀n).mpr hmem
      rw [hj₀unv] at this
      cases this
    apply ih
    · simp [hvlen]
    · simp [List.nodup_append, hnd, hj₀notmem]
    · intro x hx
      rcases List.mem_append.mp hx with hx | hx
      · exact hbd x hx
      · rw [List.mem_singleton.mp hx]; exact hj₀n
    · intro j hjn
      rw [getD_set_bool]
      by_cases hje : j₀ = j
      · subst hje
        rw [if_pos ⟨rfl, by omega⟩]
        simp
      · rw [if_neg (by tauto)]
        rw [hiff j hjn]
        constructor
        · intro hm; exact List.mem_append.mpr (Or.inl hm)
        · intro hm
          rcases List.mem_append.mp hm with hm | hm
          · exact hm
          · exact absurd (List.mem_singleton.mp hm) (fun he => hje he.symm)
    · rw [List.head?_append_of_ne_nil]
      · exact hhd
      · intro hnil; rw [hnil] at hhd; cases hhd
    · simp
      omega

/-- C10 counterexample.  The claim quantifies over *any* sequence of
`addDeliveryEdge` calls; an edge of weight `10^9` (= the `minDist`
initialiser) defeats the nearest-neighbour scan, so with `n = 2`, start `0`
and the single edge `(0, 1, 10^9)` the tour returns `[0, 0]` — 2 entries
instead of the claimed `n + 1 = 3`, and vertex 1 is never visited. -/
theorem c10_tour_counterexample :
    tspApprox (buildGraph 2 [(0, 1, 10 ^ 9)]) 0 2 = [0, 0] ∧
      (tspApprox (buildGraph 2 [(0, 1, 10 ^ 9)]) 0 2).length ≠ 2 + 1 := by decide

/-- C10 amended.  For every `1 ≤ n ≤ 20`, every start vertex `< n`, and
every edge list whose weights are `< 10^9` (the `minDist` initialiser of
the scan; the matrix sentinel 99999 already is), the nearest-neighbour tour
returns exactly `n + 1` vertices, begins and ends at `start`, and its first
`n` entries are a permutation of `{0, …, n−1}` — every vertex exactly once
apart from the repeated start. -/
theorem c10_tour_is_permutation :
    ∀ (n : Nat) (edges : List (Nat × Nat × Int)) (start : Nat),
      1 ≤ n → n ≤ 20 → start < n →
      (∀ e ∈ edges, e.2.2 < 10 ^ 9) →
      (tspApprox (buildGraph n edges) start n).length = n + 1 ∧
      (tspApprox (buildGraph n edges) start n).head? = some start ∧
      (tspApprox (buildGraph n edges) start n).getLast? = some start ∧
      (tspApprox (buildGraph n edges) start n).dropLast.Perm (List.range n) := by
  intro n edges start hn1 _hn20 hstart hwf
  have hglt := buildGraph_lt n edges hwf
  unfold tspApprox
  obtain ⟨hnd, hbd, hhd, hlen⟩ :=
    tourLoop_spec (buildGraph n edges) n hglt start (n - 1) start
      ((List.replicate n false).set start true) [start]
      (by simp)
      (List.nodup_singleton start)
      (by intro x hx; rw [List.mem_singleton.mp hx]; exact hstart)
      (by
        intro j hjn
        rw [getD_set_bool]
        by_cases hje : start = j
        · subst hje
          rw [if_pos ⟨rfl, by simp; omega⟩]
          simp
        · rw [if_neg (by tauto), getD_replicate_bool, if_pos hjn]
          constructor
          · intro h; cases h
          · intro hm; exact absurd (List.mem_singleton.mp hm) (fun he => hje he.symm))
      rfl
      (by simp; omega)
  set res := (tourLoop (buildGraph n edges) n (n - 1)
    (start, (List.replicate n false).set start true, [start])).2.2 with hres
  have hresne : res ≠ [] := by
    intro hnil
    rw [hnil] at hlen
    simp at hlen
    omega
  refine ⟨by simp [hlen], ?_, ?_, ?_⟩
  · rw [List.head?_append_of_ne_nil res hresne]
    exact hhd
  · exact List.getLast?_concat res
  · rw [List.dropLast_concat]
    apply (List.subperm_of_subset hnd ?_).perm_of_length_le
    · rw [List.length_range]; omega
    · intro x hx
      exact List.mem_range.mpr (hbd x hx)

/-- C10 witness: the amended theorem applied to the 6-vertex demo graph. -/
theorem c10_tour_is_permutation_witness :
    (tspApprox (buildGraph 6 demoEdges) 0 6).length = 6 + 1 ∧
      (tspApprox (buildGraph 6 demoEdges) 0 6).head? = some 0 ∧
      (tspApprox (buildGraph 6 demoEdges) 0 6).getLast? = some 0 ∧
      (tspApprox (buildGraph 6 demoEdges) 0 6).dropLast.Perm (List.range 6) :=
  c10_tour_is_permutation 6 demoEdges 0 (by norm_num) (by norm_num) (by norm_num)
    (by decide)

/-! ### C9 amended: rehash-free lookup correctness -/

theorem probeIdx_zero (key : HKey) : probeIdx key 0 = hashSum key 53 := by
  unfold probeIdx hashSum
  rw [show triang 0 = 0 from rfl]
  omega

theorem probeIdx_lt (key : HKey) (m : Nat) : probeIdx key m < 53 :=
  Nat.mod_lt _ (by norm_num)

theorem probeIdx_step (key : HKey) (m : Nat) :
    (probeIdx key m + (m + 1)) % 53 = probeIdx key (m + 1) := by
  unfold probeIdx
  rw [Nat.mod_add_mod, show triang (m + 1) = triang m + (m + 1) from rfl]
  congr 1
  ring

theorem getD_set_hslot (l : List HSlot) (i : Nat) (x : HSlot) (v : Nat) :
    (l.set i x).getD v none = if i = v ∧ i < l.length then x else l.getD v none := by
  rw [List.getD_eq_getElem?_getD, List.getElem?_set]
  by_cases h1 : i = v
  · subst h1
    by_cases h2 : i < l.length
    · simp [h2]
    · rw [if_pos rfl, if_neg h2, if_neg (by tauto)]
      rw [List.getD_eq_default l none (by omega)]
      rfl
  · rw [if_neg h1, if_neg (by tauto), ← List.getD_eq_getElem?_getD]

theorem findSlot_stops (slots : List HSlot) (key : HKey) :
    ∀ (m fuel m0 : Nat),
      (∀ i, m0 ≤ i → i < m0 + m → blockedB slots key (probeIdx key i) = true) →
      probeStop slots key (m0 + m) →
      m < fuel →
      findSlot slots 53 key (probeIdx key m0) (m0 + 1) fuel =
        some (probeIdx key (m0 + m)) := by
  intro m
  induction m with
  | zero =>
    intro fuel m0 _ hstop hfuel
    cases fuel with
    | zero => omega
    | succ fuel =>
      unfold findSlot
      rcases hstop with hfree | ⟨v, hmatch⟩
      · rw [Nat.add_zero] at hfree
        rw [hfree]
        simp
      · rw [Nat.add_zero] at hmatch
        rw [hmatch]
        simp
  | succ m ih =>
    intro fuel m0 hblock hstop hfuel
    cases fuel with
    | zero => omega
    | succ fuel =>
      have hb := hblock m0 le_rfl (by omega)
      unfold blockedB at hb
      unfold findSlot
      cases hslot : slots.getD (probeIdx key m0) none with
      | none => rw [hslot] at hb; exact absurd hb (by simp)
      | some kv =>
        rw [hslot] at hb
        obtain ⟨k, w⟩ := kv
        dsimp only
        simp only [bne_iff_ne, ne_eq] at hb
        rw [if_neg hb, probeIdx_step]
        rw [show m0 + (m + 1) = (m0 + 1) + m by omega] at hstop ⊢
        exact ih fuel (m0 + 1) (fun i h1 h2 => hblock i (by omega) (by omega)) hstop
          (by omega)

theorem findSlot_some_spec (slots : List HSlot) (key : HKey) :
    ∀ (fuel m0 idx : Nat),
      findSlot slots 53 key (probeIdx key m0) (m0 + 1) fuel = some idx →
      ∃ m, m0 ≤ m ∧ m < m0 + fuel ∧ idx = probeIdx key m ∧
        (∀ i, m0 ≤ i → i < m → blockedB slots key (probeIdx key i) = true) ∧
        probeStop slots key m := by
  intro fuel
  induction fuel with
  | zero => intro m0 idx h; exact absurd h (by simp [findSlot])
  | succ fuel ih =>
    intro m0 idx h
    unfold findSlot at h
    cases hslot : slots.getD (probeIdx key m0) none with
    | none =>
      rw [hslot] at h
      cases h
      exact ⟨m0, le_rfl, by omega, rfl, by intro i h1 h2; omega, Or.inl hslot⟩
    | some kv =>
      rw [hslot] at h
      obtain ⟨k, w⟩ := kv
      dsimp only at h
      by_cases hk : k = key
      · rw [if_pos hk] at h
        cases h
        exact ⟨m0, le_rfl, by omega, rfl, by intro i h1 h2; omega,
          Or.inr ⟨w, by rw [hslot, hk]⟩⟩
      · rw [if_neg hk, probeIdx_step] at h
        obtain ⟨m, hm1, hm2, hm3, hm4, hm5⟩ := ih (m0 + 1) idx h
        refine ⟨m, by omega, by omega, hm3, ?_, hm5⟩
        intro i h1 h2
        rcases Nat.eq_or_lt_of_le h1 with he | hlt
        · subst he
          unfold blockedB
          rw [hslot]
          simp [hk]
        · exact hm4 i (by omega) h2

theorem lastVal_append (ops : List (HKey × Nat)) (op : HKey × Nat) (key : HKey) :
    lastVal (ops ++ [op]) key =
      if op.1 = key then some op.2 else lastVal ops key := by
  unfold lastVal
  rw [List.foldl_append, List.foldl_cons, List.foldl_nil]

theorem TableInv_step (ops : List (HKey × Nat)) (s : TableState) (k : HKey) (v : Nat)
    (hinv : TableInv ops s) (hlen37 : ops.length ≤ 37) (s' : TableState)
    (h : insertTable s k v = some s') :
    TableInv (ops ++ [(k, v)]) s' := by
  obtain ⟨hc, hl, hn, hcontent, hpres⟩ := hinv
  have htrig : ¬ (7 * s.cap ≤ 10 * s.count) := by rw [hc]; omega
  have h2 : place s k v = some s' := by
    have h3 : insertAux 2 s k v = some s' := h
    rw [insertAux_succ 1, if_neg htrig] at h3
    exact h3
  unfold place at h2
  rw [hc, ← probeIdx_zero k] at h2
  cases hfind : findSlot s.slots 53 k (probeIdx k 0) 1 (2 * 53) with
  | none => rw [hfind] at h2; cases h2
  | some idx =>
    rw [hfind] at h2
    dsimp only at h2
    have hfind' : findSlot s.slots 53 k (probeIdx k 0) (0 + 1) 106 = some idx := by
      simpa using hfind
    obtain ⟨m, _h0m, hm106, hidx, hblock, hstop⟩ :=
      findSlot_some_spec s.slots k 106 0 idx hfind'
    have hidx53 : idx < 53 := by rw [hidx]; exact probeIdx_lt k m
    have hmain : s'.cap = 53 ∧ s'.slots = s.slots.set idx (some (k, v)) ∧
        s'.count ≤ s.count + 1 := by
      cases hslot : s.slots.getD idx none with
      | none => rw [hslot] at h2; cases h2; exact ⟨rfl, rfl, le_rfl⟩
      | some kv => rw [hslot] at h2; cases h2; exact ⟨rfl, rfl, Nat.le_succ _⟩
    obtain ⟨hc', hs', hn'⟩ := hmain
    refine ⟨hc', by rw [hs', List.length_set, hl], ?_, ?_, ?_⟩
    · simp only [List.length_append, List.length_cons, List.length_nil]
      omega
    · -- content clause
      intro j hj k2 v2 hsome
      rw [hs', getD_set_hslot, hl] at hsome
      by_cases hij : idx = j
      · rw [if_pos ⟨hij, hidx53⟩] at hsome
        simp only [Option.some.injEq, Prod.mk.injEq] at hsome
        obtain ⟨hk2e, hv2e⟩ := hsome
        subst hk2e
        subst hv2e
        constructor
        · rw [lastVal_append]; simp
        · refine ⟨m, by omega, by rw [← hidx]; exact hij, ?_⟩
          intro i hi
          have hbOld := hblock i (by omega) hi
          unfold blockedB at hbOld ⊢
          rw [hs', getD_set_hslot, hl]
          by_cases hpi : idx = probeIdx k i
          · exfalso
            rcases hstop with hfree | ⟨v5, hmatch⟩
            · rw [← hidx] at hfree
              rw [← hpi, hfree] at hbOld
              exact absurd hbOld (by simp)
            · rw [← hidx] at hmatch
              rw [← hpi, hmatch] at hbOld
              simp at hbOld
          · rw [if_neg (by tauto)]
            exact hbOld
      · rw [if_neg (by tauto)] at hsome
        obtain ⟨hlastOld, m1, hm1lt, hm1eq, hm1block⟩ := hcontent j hj k2 v2 hsome
        have hk2 : k2 ≠ k := by
          intro he
          subst he
          rcases Nat.lt_trichotomy m m1 with hlt | heq | hgt
          · have hb1 := hm1block m hlt
            unfold blockedB at hb1
            rcases hstop with hfree | ⟨v5, hmatch⟩
            · rw [hfree] at hb1; exact absurd hb1 (by simp)
            · rw [hmatch] at hb1; simp at hb1
          · exact hij (by rw [hidx, heq, hm1eq])
          · have hb2 := hblock m1 (by omega) hgt
            unfold blockedB at hb2
            rw [hm1eq, hsome] at hb2
            simp at hb2
        constructor
        · rw [lastVal_append, if_neg (fun he => hk2 he.symm)]
          exact hlastOld
        · refine ⟨m1, hm1lt, hm1eq, ?_⟩
          intro i hi
          have hbOld := hm1block i hi
          unfold blockedB at hbOld ⊢
          rw [hs', getD_set_hslot, hl]
          by_cases hpi : idx = probeIdx k2 i
          · rw [if_pos ⟨hpi, hidx53⟩]
            simp only [bne_iff_ne, ne_eq]
            exact fun he => hk2 he.symm
          · rw [if_neg (by tauto)]
            exact hbOld
    · -- presence clause
      intro k4 hk4
      rw [lastVal_append] at hk4
      by_cases hkk : k = k4
      · refine ⟨idx, hidx53, v, ?_⟩
        rw [hs', getD_set_hslot, hl, if_pos ⟨rfl, hidx53⟩, hkk]
      · rw [if_neg hkk] at hk4
        obtain ⟨j4, hj4, v4, hslot4⟩ := hpres k4 hk4
        have hj4ne : idx ≠ j4 := by
          intro he
          rcases hstop with hfree | ⟨v5, hmatch⟩
          · rw [← hidx] at hfree
            rw [he, hslot4] at hfree
            cases hfree
          · rw [← hidx] at hmatch
            rw [he, hslot4] at hmatch
            simp only [Option.some.injEq, Prod.mk.injEq] at hmatch
            exact hkk (hmatch.1.symm ▸ rfl)
        refine ⟨j4, hj4, v4, ?_⟩
        rw [hs', getD_set_hslot, hl, if_neg (by tauto)]
        exact hslot4

theorem TableInv_empty : TableInv [] emptyTable := by
  refine ⟨rfl, by decide, le_rfl, ?_, ?_⟩
  · intro j hj k v hsome
    exfalso
    rw [show emptyTable.slots = List.replicate 53 none from rfl,
      List.getD_eq_getElem?_getD, List.getElem?_replicate] at hsome
    split_ifs at hsome
    all_goals simp at hsome
  · intro k hk
    exact absurd rfl hk

theorem runInserts_append (ops : List (HKey × Nat)) (op : HKey × Nat) :
    runInserts (ops ++ [op]) =
      (runInserts ops).bind (fun t => insertTable t op.1 op.2) := by
  unfold runInserts
  rw [List.foldl_append, List.foldl_cons, List.foldl_nil]

theorem runInserts_TableInv :
    ∀ (ops : List (HKey × Nat)), ops.length ≤ 37 →
      ∀ s, runInserts ops = some s → TableInv ops s := by
  intro ops
  induction ops using List.reverseRecOn with
  | nil => intro _ s h; cases h; exact TableInv_empty
  | append_singleton ops op ih =>
    intro hlen s h
    rw [runInserts_append] at h
    cases hrun : runInserts ops with
    | none => rw [hrun] at h; cases h
    | some s0 =>
      rw [hrun] at h
      dsimp only [Option.bind] at h
      have hlen' : ops.length ≤ 37 := by
        rw [List.length_append] at hlen
        simp at hlen
        omega
      exact TableInv_step ops s0 op.1 op.2 (ih hlen' s0 hrun) hlen' s h

/-- C9 amended.  For every rehash-free sequence of inserts (at most 37, so
the load threshold is never reached) that runs to completion:
`lookup(key)` of an inserted key terminates and returns the value of the
most recent insert for that key; `lookup(key)` of a never-inserted key
never returns a value — it reports "not found" when its probe loop
terminates, but (as `c9_lookup_diverges_counterexample` shows) the probe
loop can also cycle forever instead of returning. -/
theorem c9_lookup_amended :
    ∀ (ops : List (HKey × Nat)) (s : TableState) (key : HKey),
      ops.length ≤ 37 → runInserts ops = some s →
      (∀ v, lastVal ops key = some v → retrieveTable s key = some (some v)) ∧
      (lastVal ops key = none →
        retrieveTable s key = some none ∨ retrieveTable s key = none) := by
  intro ops s key hlen hrun
  obtain ⟨hc, hl, _hn, hcontent, hpres⟩ := runInserts_TableInv ops hlen s hrun
  constructor
  · intro v hv
    obtain ⟨j, hj, v4, hslot⟩ := hpres key (by rw [hv]; simp)
    obtain ⟨hlastv, m, hm, hpj, hblock⟩ := hcontent j hj key v4 hslot
    have hv4 : v4 = v := by
      rw [hv] at hlastv
      injection hlastv with he
      exact he.symm
    subst hv4
    unfold retrieveTable retrieveFuel
    rw [hc, ← probeIdx_zero key]
    have hstops := findSlot_stops s.slots key m (2 * 53) 0
      (by intro i _ hi; exact hblock i (by omega))
      (by
        right
        refine ⟨v4, ?_⟩
        rw [show (0 : Nat) + m = m from by omega, hpj]
        exact hslot)
      (by omega)
    have hstops' : findSlot s.slots 53 key (probeIdx key 0) 1 (2 * 53) =
        some (probeIdx key m) := by simpa using hstops
    rw [hstops']
    dsimp only
    rw [hpj, hslot]
    dsimp only
    rw [if_pos rfl]
  · intro hnone
    cases hfind : findSlot s.slots s.cap key (hashSum key s.cap) 1 (2 * s.cap) with
    | none =>
      right
      unfold retrieveTable retrieveFuel
      rw [hfind]
    | some idx =>
      left
      unfold retrieveTable retrieveFuel
      rw [hfind]
      dsimp only
      have hidx53 : idx < 53 := by
        have := findSlot_lt s.slots s.cap key (by rw [hc]; norm_num)
          (2 * s.cap) (hashSum key s.cap) 1
          (by
            unfold hashSum
            exact Nat.mod_lt _ (by rw [hc]; norm_num))
          idx hfind
        rw [hc] at this
        exact this
      cases hslot : s.slots.getD idx none with
      | none => rfl
      | some kv =>
        obtain ⟨k5, v5⟩ := kv
        dsimp only
        by_cases hk5 : k5 = key
        · exfalso
          subst hk5
          have := (hcontent idx hidx53 k5 v5 hslot).1
          rw [hnone] at this
          cases this
        · rw [if_neg hk5]

/-- C9 witness: on three inserts `"a"`, `"aa"`, `"aaa"`, lookup of `"aa"`
returns its inserted value 2. -/
theorem c9_lookup_amended_witness :
    retrieveTable ((runInserts (opsA 3)).getD emptyTable) (keyA 2) = some (some 2) :=
  (c9_lookup_amended (opsA 3) ((runInserts (opsA 3)).getD emptyTable) (keyA 2)
      (by decide) (by decide)).1 2 (by decide)

/-! ### C7: AVL balance and ordering -/

theorem heightC_eq {t : AVLTree} (h : HCache t) : heightC t = realHeight t := by
  cases h with
  | nil => rfl
  | node hl hr he => simpa [heightC, realHeight] using he

theorem ForallT_imp {p q : Int → Prop} (hpq : ∀ x, p x → q x) :
    ∀ {t : AVLTree}, ForallT p t → ForallT q t := by
  intro t h
  induction h with
  | nil => exact ForallT.nil
  | node _ hk _ ihl ihr => exact ForallT.node ihl (hpq _ hk) ihr

theorem ForallT_node_inv {p : Int → Prop} {l r : AVLTree} {k : Int} {n : String}
    {h : Nat} (hf : ForallT p (.node l k n h r)) :
    ForallT p l ∧ p k ∧ ForallT p r := by
  cases hf with
  | node hl hk hr => exact ⟨hl, hk, hr⟩

theorem ForallT_rightRotate {p : Int → Prop} :
    ∀ {t : AVLTree}, ForallT p t → ForallT p (rightRotate t) := by
  intro t h
  cases t with
  | nil => exact h
  | node l k n hh r =>
    cases l with
    | nil => exact h
    | node ll lk ln lh lr =>
      obtain ⟨h1, hk, h2⟩ := ForallT_node_inv h
      obtain ⟨h11, hlk, h12⟩ := ForallT_node_inv h1
      exact ForallT.node h11 hlk (ForallT.node h12 hk h2)

theorem ForallT_leftRotate {p : Int → Prop} :
    ∀ {t : AVLTree}, ForallT p t → ForallT p (leftRotate t) := by
  intro t h
  cases t with
  | nil => exact h
  | node l k n hh r =>
    cases r with
    | nil => exact h
    | node rl rk rn rh rr =>
      obtain ⟨h1, hk, h2⟩ := ForallT_node_inv h
      obtain ⟨h21, hrk, h22⟩ := ForallT_node_inv h2
      exact ForallT.node (ForallT.node h1 hk h21) hrk h22

theorem OrderedT_node_inv {l r : AVLTree} {k : Int} {n : String} {h : Nat}
    (ho : OrderedT (.node l k n h r)) :
    OrderedT l ∧ OrderedT r ∧ ForallT (· < k) l ∧ ForallT (k < ·) r := by
  cases ho with
  | node hl hr hfl hfr => exact ⟨hl, hr, hfl, hfr⟩

theorem OrderedT_rightRotate :
    ∀ {t : AVLTree}, OrderedT t → OrderedT (rightRotate t) := by
  intro t h
  cases t with
  | nil => exact h
  | node l k n hh r =>
    cases l with
    | nil => exact h
    | node ll lk ln lh lr =>
      obtain ⟨hol, hor, hfl, hfr⟩ := OrderedT_node_inv h
      obtain ⟨holl, holr, hfll, hflr⟩ := OrderedT_node_inv hol
      obtain ⟨hFll, hlkk, hFlr⟩ := ForallT_node_inv hfl
      exact OrderedT.node holl (OrderedT.node holr hor hFlr hfr) hfll
        (ForallT.node hflr hlkk (ForallT_imp (fun x hx => lt_trans hlkk hx) hfr))

theorem OrderedT_leftRotate :
    ∀ {t : AVLTree}, OrderedT t → OrderedT (leftRotate t) := by
  intro t h
  cases t with
  | nil => exact h
  | node l k n hh r =>
    cases r with
    | nil => exact h
    | node rl rk rn rh rr =>
      obtain ⟨hol, hor, hfl, hfr⟩ := OrderedT_node_inv h
      obtain ⟨horl, horr, hfrl, hfrr⟩ := OrderedT_node_inv hor
      obtain ⟨hFrl, hkrk, hFrr⟩ := ForallT_node_inv hfr
      exact OrderedT.node (OrderedT.node hol horl hfl hFrl) horr
        (ForallT.node (ForallT_imp (fun x hx => lt_trans hx hkrk) hfl) hkrk hfrl)
        hfrr

theorem realHeight_node (l : AVLTree) (k : Int) (n : String) (h : Nat) (r : AVLTree) :
    realHeight (.node l k n h r) = 1 + max (realHeight l) (realHeight r) := rfl

theorem bfR_node (l : AVLTree) (k : Int) (n : String) (h : Nat) (r : AVLTree) :
    bfR (.node l k n h r) = (realHeight l : Int) - realHeight r := rfl

theorem rightRotate_fix (ll : AVLTree) (lk : Int) (ln : String) (lh : Nat)
    (lr : AVLTree) (k : Int) (n : String) (h0 : Nat) (r : AVLTree) (c : Nat)
    (hcll : HCache ll) (hclr : HCache lr) (hcr : HCache r)
    (hbll : BalancedT ll) (hblr : BalancedT lr) (hbr : BalancedT r)
    (hhll : realHeight ll = c + 1) (hhlr : realHeight lr = c)
    (hhr : realHeight r = c) :
    HCache (rightRotate (.node (.node ll lk ln lh lr) k n h0 r)) ∧
    BalancedT (rightRotate (.node (.node ll lk ln lh lr) k n h0 r)) ∧
    realHeight (rightRotate (.node (.node ll lk ln lh lr) k n h0 r)) = c + 2 := by
  have hred : rightRotate (.node (.node ll lk ln lh lr) k n h0 r) =
      .node ll lk ln (max (heightC ll) (max (heightC lr) (heightC r) + 1) + 1)
        (.node lr k n (max (heightC lr) (heightC r) + 1) r) := rfl
  rw [hred, heightC_eq hcll, heightC_eq hclr, heightC_eq hcr, hhll, hhlr, hhr]
  refine ⟨?_, ?_, ?_⟩
  · refine HCache.node hcll (HCache.node hclr hcr ?_) ?_
    · rw [hhlr, hhr]; omega
    · rw [hhll, realHeight_node, hhlr, hhr]; omega
  · refine BalancedT.node hbll (BalancedT.node hblr hbr ?_ ?_) ?_ ?_ <;>
      (simp [realHeight_node, hhll, hhlr, hhr]; try omega)
  · rw [realHeight_node, realHeight_node, hhll, hhlr, hhr]; omega

theorem leftRotate_fix (l : AVLTree) (k : Int) (n : String) (h0 : Nat)
    (rl : AVLTree) (rk : Int) (rn : String) (rh : Nat) (rr : AVLTree) (c : Nat)
    (hcl : HCache l) (hcrl : HCache rl) (hcrr : HCache rr)
    (hbl : BalancedT l) (hbrl : BalancedT rl) (hbrr : BalancedT rr)
    (hhl : realHeight l = c) (hhrl : realHeight rl = c)
    (hhrr : realHeight rr = c + 1) :
    HCache (leftRotate (.node l k n h0 (.node rl rk rn rh rr))) ∧
    BalancedT (leftRotate (.node l k n h0 (.node rl rk rn rh rr))) ∧
    realHeight (leftRotate (.node l k n h0 (.node rl rk rn rh rr))) = c + 2 := by
  have hred : leftRotate (.node l k n h0 (.node rl rk rn rh rr)) =
      .node (.node l k n (max (heightC l) (heightC rl) + 1) rl) rk rn
        (max (max (heightC l) (heightC rl) + 1) (heightC rr) + 1) rr := rfl
  rw [hred, heightC_eq hcl, heightC_eq hcrl, heightC_eq hcrr, hhl, hhrl, hhrr]
  refine ⟨?_, ?_, ?_⟩
  · refine HCache.node (HCache.node hcl hcrl ?_) hcrr ?_
    · rw [hhl, hhrl]; omega
    · rw [hhrr, realHeight_node, hhl, hhrl]; omega
  · refine BalancedT.node (BalancedT.node hbl hbrl ?_ ?_) hbrr ?_ ?_ <;>
      (simp [realHeight_node, hhl, hhrl, hhrr]; try omega)
  · rw [realHeight_node, realHeight_node, hhl, hhrl, hhrr]; omega

theorem doubleRotateLR_fix (la : AVLTree) (lk : Int) (ln : String) (lh0 : Nat)
    (lba : AVLTree) (bk : Int) (bn : String) (bh0 : Nat) (lbb : AVLTree)
    (k : Int) (n : String) (h0 : Nat) (r : AVLTree) (c p q : Nat)
    (hcla : HCache la) (hclba : HCache lba) (hclbb : HCache lbb) (hcr : HCache r)
    (hbla : BalancedT la) (hblba : BalancedT lba) (hblbb : BalancedT lbb)
    (hbr : BalancedT r)
    (hhla : realHeight la = c) (hhlba : realHeight lba = p)
    (hhlbb : realHeight lbb = q) (hhr : realHeight r = c)
    (hmax : max p q = c) (hpq1 : p ≤ q + 1) (hpq2 : q ≤ p + 1) :
    HCache (rightRotate (.node
        (leftRotate (.node la lk ln lh0 (.node lba bk bn bh0 lbb))) k n h0 r)) ∧
    BalancedT (rightRotate (.node
        (leftRotate (.node la lk ln lh0 (.node lba bk bn bh0 lbb))) k n h0 r)) ∧
    realHeight (rightRotate (.node
        (leftRotate (.node la lk ln lh0 (.node lba bk bn bh0 lbb))) k n h0 r)) =
      c + 2 := by
  have hA : heightC la = c := by rw [heightC_eq hcla, hhla]
  have hB : heightC lba = p := by rw [heightC_eq hclba, hhlba]
  have hC : heightC lbb = q := by rw [heightC_eq hclbb, hhlbb]
  have hD : heightC r = c := by rw [heightC_eq hcr, hhr]
  have hred : rightRotate (.node
      (leftRotate (.node la lk ln lh0 (.node lba bk bn bh0 lbb))) k n h0 r) =
      .node (.node la lk ln (max (heightC la) (heightC lba) + 1) lba) bk bn
        (max (max (heightC la) (heightC lba) + 1)
          (max (heightC lbb) (heightC r) + 1) + 1)
        (.node lbb k n (max (heightC lbb) (heightC r) + 1) r) := rfl
  rw [hred, hA, hB, hC, hD]
  refine ⟨?_, ?_, ?_⟩
  · refine HCache.node (HCache.node hcla hclba ?_) (HCache.node hclbb hcr ?_) ?_
    · rw [hhla, hhlba]; omega
    · rw [hhlbb, hhr]; omega
    · rw [realHeight_node, realHeight_node, hhla, hhlba, hhlbb, hhr]; omega
  · refine BalancedT.node (BalancedT.node hbla hblba ?_ ?_)
      (BalancedT.node hblbb hbr ?_ ?_) ?_ ?_ <;>
      simp [realHeight_node, hhla, hhlba, hhlbb, hhr] <;> omega
  · rw [realHeight_node, realHeight_node, realHeight_node, hhla, hhlba, hhlbb, hhr]
    omega

theorem doubleRotateRL_fix (l : AVLTree) (k : Int) (n : String) (h0 : Nat)
    (rla : AVLTree) (rlk : Int) (rln : String) (rlh0 : Nat) (rlb : AVLTree)
    (rk : Int) (rn : String) (rh0 : Nat) (rr : AVLTree) (c p q : Nat)
    (hcl : HCache l) (hcrla : HCache rla) (hcrlb : HCache rlb) (hcrr : HCache rr)
    (hbl : BalancedT l) (hbrla : BalancedT rla) (hbrlb : BalancedT rlb)
    (hbrr : BalancedT rr)
    (hhl : realHeight l = c) (hhrla : realHeight rla = p)
    (hhrlb : realHeight rlb = q) (hhrr : realHeight rr = c)
    (hmax : max p q = c) (hpq1 : p ≤ q + 1) (hpq2 : q ≤ p + 1) :
    HCache (leftRotate (.node l k n h0
        (rightRotate (.node (.node rla rlk rln rlh0 rlb) rk rn rh0 rr)))) ∧
    BalancedT (leftRotate (.node l k n h0
        (rightRotate (.node (.node rla rlk rln rlh0 rlb) rk rn rh0 rr)))) ∧
    realHeight (leftRotate (.node l k n h0
        (rightRotate (.node (.node rla rlk rln rlh0 rlb) rk rn rh0 rr)))) =
      c + 2 := by
  have hA : heightC l = c := by rw [heightC_eq hcl, hhl]
  have hB : heightC rla = p := by rw [heightC_eq hcrla, hhrla]
  have hC : heightC rlb = q := by rw [heightC_eq hcrlb, hhrlb]
  have hD : heightC rr = c := by rw [heightC_eq hcrr, hhrr]
  have hred : leftRotate (.node l k n h0
      (rightRotate (.node (.node rla rlk rln rlh0 rlb) rk rn rh0 rr))) =
      .node (.node l k n (max (heightC l) (heightC rla) + 1) rla) rlk rln
        (max (max (heightC l) (heightC rla) + 1)
          (max (heightC rlb) (heightC rr) + 1) + 1)
        (.node rlb rk rn (max (heightC rlb) (heightC rr) + 1) rr) := rfl
  rw [hred, hA, hB, hC, hD]
  refine ⟨?_, ?_, ?_⟩
  · refine HCache.node (HCache.node hcl hcrla ?_) (HCache.node hcrlb hcrr ?_) ?_
    · rw [hhl, hhrla]; omega
    · rw [hhrlb, hhrr]; omega
    · rw [realHeight_node, realHeight_node, hhl, hhrla, hhrlb, hhrr]; omega
  · refine BalancedT.node (BalancedT.node hbl hbrla ?_ ?_)
      (BalancedT.node hbrlb hbrr ?_ ?_) ?_ ?_ <;>
      simp [realHeight_node, hhl, hhrla, hhrlb, hhrr] <;> omega
  · rw [realHeight_node, realHeight_node, realHeight_node, hhl, hhrla, hhrlb, hhrr]
    omega

theorem HCache_node_inv {l r : AVLTree} {k : Int} {n : String} {h : Nat}
    (hc : HCache (.node l k n h r)) :
    HCache l ∧ HCache r ∧ h = 1 + max (realHeight l) (realHeight r) := by
  cases hc with
  | node a b e => exact ⟨a, b, e⟩

theorem BalancedT_node_inv {l r : AVLTree} {k : Int} {n : String} {h : Nat}
    (hb : BalancedT (.node l k n h r)) :
    BalancedT l ∧ BalancedT r ∧
      realHeight l ≤ realHeight r + 1 ∧ realHeight r ≤ realHeight l + 1 := by
  cases hb with
  | node a b e f => exact ⟨a, b, e, f⟩

theorem insertAVL_nil (key : Int) (name : String) :
    insertAVL .nil key name = createNode key name := rfl

theorem insertAVL_node (l : AVLTree) (k0 : Int) (n0 : String) (h0 : Nat)
    (r : AVLTree) (key : Int) (name : String) :
    insertAVL (.node l k0 n0 h0 r) key name =
      if key < k0 then rebuildAVL (insertAVL l key name) k0 n0 r key
      else if k0 < key then rebuildAVL l k0 n0 (insertAVL r key name) key
      else .node l k0 n0 h0 r := rfl

theorem ForallT_rebuild {p : Int → Prop} (l : AVLTree) (k : Int) (n : String)
    (r : AVLTree) (key : Int) (hl : ForallT p l) (hk : p k) (hr : ForallT p r) :
    ForallT p (rebuildAVL l k n r key) := by
  unfold rebuildAVL
  split_ifs with h1 h2 h3 h4
  · exact ForallT_rightRotate (ForallT.node hl hk hr)
  · exact ForallT_leftRotate (ForallT.node hl hk hr)
  · exact ForallT_rightRotate (ForallT.node (ForallT_leftRotate hl) hk hr)
  · exact ForallT_leftRotate (ForallT.node hl hk (ForallT_rightRotate hr))
  · exact ForallT.node hl hk hr

theorem ForallT_insert {p : Int → Prop} (key : Int) (name : String) (hkey : p key) :
    ∀ t : AVLTree, ForallT p t → ForallT p (insertAVL t key name) := by
  intro t
  induction t with
  | nil => intro _; exact ForallT.node ForallT.nil hkey ForallT.nil
  | node l k0 n0 h0 r ihl ihr =>
    intro h
    obtain ⟨h1, h2, h3⟩ := ForallT_node_inv h
    rw [insertAVL_node]
    split_ifs with hlt hgt
    · exact ForallT_rebuild _ _ _ _ _ (ihl h1) h2 h3
    · exact ForallT_rebuild _ _ _ _ _ h1 h2 (ihr h3)
    · exact h

theorem OrderedT_rebuild (l : AVLTree) (k : Int) (n : String) (r : AVLTree)
    (key : Int) (hol : OrderedT l) (hor : OrderedT r)
    (hfl : ForallT (· < k) l) (hfr : ForallT (k < ·) r) :
    OrderedT (rebuildAVL l k n r key) := by
  unfold rebuildAVL
  split_ifs with h1 h2 h3 h4
  · exact OrderedT_rightRotate (OrderedT.node hol hor hfl hfr)
  · exact OrderedT_leftRotate (OrderedT.node hol hor hfl hfr)
  · exact OrderedT_rightRotate
      (OrderedT.node (OrderedT_leftRotate hol) hor (ForallT_leftRotate hfl) hfr)
  · exact OrderedT_leftRotate
      (OrderedT.node hol (OrderedT_rightRotate hor) hfl (ForallT_rightRotate hfr))
  · exact OrderedT.node hol hor hfl hfr

theorem rebuild_left_heavy (l' : AVLTree) (k0 : Int) (n0 : String) (r : AVLTree)
    (key : Int) (c : Nat)
    (hcl' : HCache l') (hcr : HCache r) (hbl' : BalancedT l') (hbr : BalancedT r)
    (hh : realHeight l' = c + 2) (hhr : realHeight r = c)
    (hcase : (key < rootKeyD l' ∧ bfR l' = 1) ∨ (rootKeyD l' < key ∧ bfR l' = -1)) :
    HCache (rebuildAVL l' k0 n0 r key) ∧ BalancedT (rebuildAVL l' k0 n0 r key) ∧
    realHeight (rebuildAVL l' k0 n0 r key) = c + 2 := by
  cases l' with
  | nil => rw [show realHeight .nil = 0 from rfl] at hh; omega
  | node la lk2 ln2 lh2 lb =>
    obtain ⟨hcla, hclb, hlh2⟩ := HCache_node_inv hcl'
    obtain ⟨hbla, hblb, hd1, hd2⟩ := BalancedT_node_inv hbl'
    have hCl : heightC (.node la lk2 ln2 lh2 lb) = c + 2 := by
      rw [heightC_eq hcl', hh]
    have hCr : heightC r = c := by rw [heightC_eq hcr, hhr]
    rw [realHeight_node] at hh
    unfold rebuildAVL
    rcases hcase with ⟨hklt, hbf1⟩ | ⟨hkgt, hbfm1⟩
    · rw [bfR_node] at hbf1
      have hla : realHeight la = c + 1 := by omega
      have hlb : realHeight lb = c := by omega
      rw [if_pos ⟨by rw [hCl, hCr]; norm_num, hklt⟩]
      exact rightRotate_fix la lk2 ln2 lh2 lb k0 n0 _ r c hcla hclb hcr
        hbla hblb hbr hla hlb hhr
    · rw [bfR_node] at hbfm1
      have hla : realHeight la = c := by omega
      have hlb : realHeight lb = c + 1 := by omega
      have hknotlt : ¬ key < rootKeyD (.node la lk2 ln2 lh2 lb) := not_lt_of_gt hkgt
      rw [if_neg (fun hand => hknotlt hand.2),
        if_neg (fun hand => by rw [hCl, hCr] at hand; omega),
        if_pos ⟨by rw [hCl, hCr]; norm_num, hkgt⟩]
      cases lb with
      | nil => rw [show realHeight .nil = 0 from rfl] at hlb; omega
      | node lba bk2 bn2 bh2 lbb =>
        obtain ⟨hclba, hclbb, _⟩ := HCache_node_inv hclb
        obtain ⟨hblba, hblbb, he1, he2⟩ := BalancedT_node_inv hblb
        rw [realHeight_node] at hlb
        exact doubleRotateLR_fix la lk2 ln2 lh2 lba bk2 bn2 bh2 lbb k0 n0 _ r c
          (realHeight lba) (realHeight lbb) hcla hclba hclbb hcr
          hbla hblba hblbb hbr hla rfl rfl hhr (by omega) he1 he2

theorem rebuild_right_heavy (l : AVLTree) (k0 : Int) (n0 : String) (r' : AVLTree)
    (key : Int) (c : Nat)
    (hcl : HCache l) (hcr' : HCache r') (hbl : BalancedT l) (hbr' : BalancedT r')
    (hh : realHeight l = c) (hhr : realHeight r' = c + 2)
    (hcase : (rootKeyD r' < key ∧ bfR r' = -1) ∨ (key < rootKeyD r' ∧ bfR r' = 1)) :
    HCache (rebuildAVL l k0 n0 r' key) ∧ BalancedT (rebuildAVL l k0 n0 r' key) ∧
    realHeight (rebuildAVL l k0 n0 r' key) = c + 2 := by
  cases r' with
  | nil => rw [show realHeight .nil = 0 from rfl] at hhr; omega
  | node ra rk2 rn2 rh2 rb =>
    obtain ⟨hcra, hcrb, hrh2⟩ := HCache_node_inv hcr'
    obtain ⟨hbra, hbrb, hd1, hd2⟩ := BalancedT_node_inv hbr'
    have hCr : heightC (.node ra rk2 rn2 rh2 rb) = c + 2 := by
      rw [heightC_eq hcr', hhr]
    have hCl : heightC l = c := by rw [heightC_eq hcl, hh]
    rw [realHeight_node] at hhr
    unfold rebuildAVL
    rcases hcase with ⟨hkgt, hbfm1⟩ | ⟨hklt, hbf1⟩
    · rw [bfR_node] at hbfm1
      have hra : realHeight ra = c := by omega
      have hrb : realHeight rb = c + 1 := by omega
      rw [if_neg (fun hand => by rw [hCl, hCr] at hand; omega),
        if_pos ⟨by rw [hCl, hCr]; omega, hkgt⟩]
      exact leftRotate_fix l k0 n0 _ ra rk2 rn2 rh2 rb c hcl hcra hcrb
        hbl hbra hbrb hh hra hrb
    · rw [bfR_node] at hbf1
      have hra : realHeight ra = c + 1 := by omega
      have hrb : realHeight rb = c := by omega
      have hknotgt : ¬ rootKeyD (.node ra rk2 rn2 rh2 rb) < key := not_lt_of_gt hklt
      rw [if_neg (fun hand => by rw [hCl, hCr] at hand; omega),
        if_neg (fun hand => hknotgt hand.2),
        if_neg (fun hand => by rw [hCl, hCr] at hand; omega),
        if_pos ⟨by rw [hCl, hCr]; omega, hklt⟩]
      cases ra with
      | nil => rw [show realHeight .nil = 0 from rfl] at hra; omega
      | node raa rak ran rah rab =>
        obtain ⟨hcraa, hcrab, _⟩ := HCache_node_inv hcra
        obtain ⟨hbraa, hbrab, he1, he2⟩ := BalancedT_node_inv hbra
        rw [realHeight_node] at hra
        exact doubleRotateRL_fix l k0 n0 _ raa rak ran rah rab rk2 rn2 rh2 rb c
          (realHeight raa) (realHeight rab) hcl hcraa hcrab hcrb
          hbl hbraa hbrab hbrb hh rfl rfl hrb (by omega) he1 he2

theorem insertAVL_good (key : Int) (name : String) :
    ∀ t : AVLTree, GoodT t →
      GoodT (insertAVL t key name) ∧
      realHeight t ≤ realHeight (insertAVL t key name) ∧
      realHeight (insertAVL t key name) ≤ realHeight t + 1 ∧
      (realHeight (insertAVL t key name) = realHeight t + 1 → t ≠ .nil →
        rootKeyD (insertAVL t key name) = rootKeyD t ∧ key ≠ rootKeyD t ∧
        (key < rootKeyD t → bfR (insertAVL t key name) = 1) ∧
        (rootKeyD t < key → bfR (insertAVL t key name) = -1)) := by
  intro t
  induction t with
  | nil =>
    intro _
    rw [insertAVL_nil]
    refine ⟨⟨?_, ?_, ?_⟩, ?_, ?_, ?_⟩
    · exact OrderedT.node OrderedT.nil OrderedT.nil ForallT.nil ForallT.nil
    · exact HCache.node HCache.nil HCache.nil rfl
    · exact BalancedT.node BalancedT.nil BalancedT.nil (by omega) (by omega)
    · rw [show createNode key name = AVLTree.node .nil key name 1 .nil from rfl,
        realHeight_node]
      omega
    · rw [show createNode key name = AVLTree.node .nil key name 1 .nil from rfl,
        realHeight_node]
      omega
    · intro _ hne; exact absurd rfl hne
  | node l k0 n0 h0 r ihl ihr =>
    intro hg
    obtain ⟨ho, hc, hb⟩ := hg
    obtain ⟨hol, hor, hfl, hfr⟩ := OrderedT_node_inv ho
    obtain ⟨hcl, hcr, hch⟩ := HCache_node_inv hc
    obtain ⟨hbl, hbr, hZ1, hZ2⟩ := BalancedT_node_inv hb
    rw [insertAVL_node]
    rcases lt_trichotomy key k0 with hlt | heq | hgt
    · rw [if_pos hlt]
      obtain ⟨⟨hol', hcl', hbl'⟩, hge, hle, hgrow⟩ := ihl ⟨hol, hcl, hbl⟩
      have hOrd : OrderedT (rebuildAVL (insertAVL l key name) k0 n0 r key) :=
        OrderedT_rebuild _ _ _ _ _ hol' hor
          (@ForallT_insert (fun x => x < k0) key name hlt l hfl) hfr
      by_cases hbf2 : realHeight r + 2 ≤ realHeight (insertAVL l key name)
      · have hhl' : realHeight (insertAVL l key name) = realHeight r + 2 := by omega
        have hgrown : realHeight (insertAVL l key name) = realHeight l + 1 := by
          omega
        have hlnil : l ≠ .nil := by
          intro hn
          have h0l : realHeight l = 0 := by rw [hn]; rfl
          omega
        obtain ⟨hrk, hkne, hpos, hneg⟩ := hgrow hgrown hlnil
        have hcase : (key < rootKeyD (insertAVL l key name) ∧
              bfR (insertAVL l key name) = 1) ∨
            (rootKeyD (insertAVL l key name) < key ∧
              bfR (insertAVL l key name) = -1) := by
          rcases lt_trichotomy key (rootKeyD l) with h1 | h1 | h1
          · exact Or.inl ⟨by rw [hrk]; exact h1, hpos h1⟩
          · exact absurd h1 hkne
          · exact Or.inr ⟨by rw [hrk]; exact h1, hneg h1⟩
        obtain ⟨hC, hB, hH⟩ := rebuild_left_heavy (insertAVL l key name) k0 n0 r
          key (realHeight r) hcl' hcr hbl' hbr hhl' rfl hcase
        refine ⟨⟨hOrd, hC, hB⟩, ?_, ?_, ?_⟩
        · rw [hH, realHeight_node]; omega
        · rw [hH, realHeight_node]; omega
        · intro habs _hne
          exfalso
          rw [hH, realHeight_node] at habs
          omega
      · have e1 : heightC (insertAVL l key name) =
            realHeight (insertAVL l key name) := heightC_eq hcl'
        have e2 : heightC r = realHeight r := heightC_eq hcr
        have hnone : rebuildAVL (insertAVL l key name) k0 n0 r key =
            .node (insertAVL l key name) k0 n0
              (1 + max (heightC (insertAVL l key name)) (heightC r)) r := by
          unfold rebuildAVL
          rw [if_neg (fun hand => by have h5 := hand.1; rw [e1, e2] at h5; omega),
            if_neg (fun hand => by have h5 := hand.1; rw [e1, e2] at h5; omega),
            if_neg (fun hand => by have h5 := hand.1; rw [e1, e2] at h5; omega),
            if_neg (fun hand => by have h5 := hand.1; rw [e1, e2] at h5; omega)]
        rw [hnone] at hOrd ⊢
        refine ⟨⟨hOrd, ?_, ?_⟩, ?_, ?_, ?_⟩
        · exact HCache.node hcl' hcr (by rw [e1, e2])
        · exact BalancedT.node hbl' hbr (by omega) (by omega)
        · rw [realHeight_node, realHeight_node]; omega
        · rw [realHeight_node, realHeight_node]; omega
        · intro habs _hne
          rw [realHeight_node, realHeight_node] at habs
          refine ⟨rfl, ne_of_lt hlt, ?_, ?_⟩
          · intro _
            rw [bfR_node]
            rw [Nat.max_def, Nat.max_def] at habs
            split_ifs at habs
            all_goals omega
          · intro h5
            exfalso
            have h6 : k0 < key := h5
            omega
    · rw [if_neg (by omega), if_neg (by omega)]
      refine ⟨⟨ho, hc, hb⟩, le_rfl, by omega, ?_⟩
      intro habs _hne
      exfalso
      omega
    · rw [if_neg (by omega), if_pos hgt]
      obtain ⟨⟨hor', hcr', hbr'⟩, hge, hle, hgrow⟩ := ihr ⟨hor, hcr, hbr⟩
      have hOrd : OrderedT (rebuildAVL l k0 n0 (insertAVL r key name) key) :=
        OrderedT_rebuild _ _ _ _ _ hol hor' hfl
          (@ForallT_insert (fun x => k0 < x) key name hgt r hfr)
      by_cases hbf2 : realHeight l + 2 ≤ realHeight (insertAVL r key name)
      · have hhr' : realHeight (insertAVL r key name) = realHeight l + 2 := by omega
        have hgrown : realHeight (insertAVL r key name) = realHeight r + 1 := by
          omega
        have hrnil : r ≠ .nil := by
          intro hn
          have h0r : realHeight r = 0 := by rw [hn]; rfl
          omega
        obtain ⟨hrk, hkne, hpos, hneg⟩ := hgrow hgrown hrnil
        have hcase : (rootKeyD (insertAVL r key name) < key ∧
              bfR (insertAVL r key name) = -1) ∨
            (key < rootKeyD (insertAVL r key name) ∧
              bfR (insertAVL r key name) = 1) := by
          rcases lt_trichotomy key (rootKeyD r) with h1 | h1 | h1
          · exact Or.inr ⟨by rw [hrk]; exact h1, hpos h1⟩
          · exact absurd h1 hkne
          · exact Or.inl ⟨by rw [hrk]; exact h1, hneg h1⟩
        obtain ⟨hC, hB, hH⟩ := rebuild_right_heavy l k0 n0
          (insertAVL r key name) key (realHeight l) hcl hcr' hbl hbr' rfl hhr'
          hcase
        refine ⟨⟨hOrd, hC, hB⟩, ?_, ?_, ?_⟩
        · rw [hH, realHeight_node]; omega
        · rw [hH, realHeight_node]; omega
        · intro habs _hne
          exfalso
          rw [hH, realHeight_node] at habs
          omega
      · have e1 : heightC (insertAVL r key name) =
            realHeight (insertAVL r key name) := heightC_eq hcr'
        have e2 : heightC l = realHeight l := heightC_eq hcl
        have hnone : rebuildAVL l k0 n0 (insertAVL r key name) key =
            .node l k0 n0
              (1 + max (heightC l) (heightC (insertAVL r key name)))
              (insertAVL r key name) := by
          unfold rebuildAVL
          rw [if_neg (fun hand => by have h5 := hand.1; rw [e1, e2] at h5; omega),
            if_neg (fun hand => by have h5 := hand.1; rw [e1, e2] at h5; omega),
            if_neg (fun hand => by have h5 := hand.1; rw [e1, e2] at h5; omega),
            if_neg (fun hand => by have h5 := hand.1; rw [e1, e2] at h5; omega)]
        rw [hnone] at hOrd ⊢
        refine ⟨⟨hOrd, ?_, ?_⟩, ?_, ?_, ?_⟩
        · exact HCache.node hcl hcr' (by rw [e1, e2])
        · exact BalancedT.node hbl hbr' (by omega) (by omega)
        · rw [realHeight_node, realHeight_node]; omega
        · rw [realHeight_node, realHeight_node]; omega
        · intro habs _hne
          rw [realHeight_node, realHeight_node] at habs
          refine ⟨rfl, ?_, ?_, ?_⟩
          · exact fun he => absurd (he ▸ hgt) (lt_irrefl key)
          · intro h5
            exfalso
            have h6 : key < k0 := h5
            omega
          · intro _
            rw [bfR_node]
            rw [Nat.max_def, Nat.max_def] at habs
            split_ifs at habs
            all_goals omega

/-- Folding any list of inserts over a well-formed tree keeps it well-formed. -/
theorem foldl_insert_good (ops : List (Int × String)) :
    ∀ t : AVLTree, GoodT t →
      GoodT (ops.foldl (fun t kv => insertAVL t kv.1 kv.2) t) := by
  induction ops with
  | nil => exact fun t h => h
  | cons kv rest ih =>
    intro t h
    exact ih _ (insertAVL_good kv.1 kv.2 t h).1

/-- The customer index built from any sequence of inserts is well-formed. -/
theorem runAVL_good (ops : List (Int × String)) : GoodT (runAVL ops) :=
  foldl_insert_good ops .nil ⟨.nil, .nil, .nil⟩

/-- A bound that holds at every node holds at every key the in-order
traversal emits. -/
theorem ForallT_mem_inorder {p : Int → Prop} :
    ∀ {t : AVLTree}, ForallT p t → ∀ x ∈ inorderKeys t, p x := by
  intro t h
  induction h with
  | nil => intro x hx; simp [inorderKeys] at hx
  | node hl hk hr ihl ihr =>
    intro x hx
    simp only [inorderKeys, List.mem_append, List.mem_singleton] at hx
    rcases hx with (hx | hx) | hx
    · exact ihl x hx
    · exact hx ▸ hk
    · exact ihr x hx

/-- Binary-search ordering makes the in-order key list strictly increasing. -/
theorem OrderedT_pairwise :
    ∀ {t : AVLTree}, OrderedT t →
      List.Pairwise (· < ·) (inorderKeys t) := by
  intro t h
  induction h with
  | nil => exact List.Pairwise.nil
  | @node l r k n hh hol hor hfl hfr ihl ihr =>
    show List.Pairwise (· < ·) (inorderKeys l ++ [k] ++ inorderKeys r)
    rw [List.append_assoc]
    refine List.pairwise_append.mpr ⟨ihl, ?_, ?_⟩
    · refine List.pairwise_append.mpr ⟨List.pairwise_singleton _ _, ihr, ?_⟩
      intro a ha b hb
      rw [List.mem_singleton] at ha
      exact ha ▸ ForallT_mem_inorder hfr b hb
    · intro a ha b hb
      have hak : a < k := ForallT_mem_inorder hfl a ha
      rcases List.mem_append.mp hb with hb | hb
      · exact (List.mem_singleton.mp hb) ▸ hak
      · exact lt_trans hak (ForallT_mem_inorder hfr b hb)

/-- C7: for every sequence of inserts into the initially empty BalancedIndex,
every node of the resulting tree satisfies |height(left) − height(right)| ≤ 1,
and the in-order traversal yields the stored keys in strictly ascending
order. -/
theorem c7_avl_invariants (ops : List (Int × String)) :
    BalancedT (runAVL ops) ∧
      List.Pairwise (· < ·) (inorderKeys (runAVL ops)) := by
  obtain ⟨ho, _, hb⟩ := runAVL_good ops
  exact ⟨hb, OrderedT_pairwise ho⟩
